import Mathlib

/-!
Verification of the `environ_get` documentation generator
(`src/environ_get/environ_get_parser.py`).

The Python module statically scans program source text for calls to the
`environ_get` accessor, associates trailing string-literal commentary with
the preceding assignment, extracts structured directives from that
commentary, validates keys, and renders a grouped reStructuredText
document.  This file gives a shallow embedding of that module: the Python
AST fragment relevant to the scanner is modelled by the inductive `Node`,
`ast.walk` by `walkBFS`, and each Python function by a Lean function of
the same name (up to Lean naming rules).  All definitions are executable.
-/

namespace EnvironGet

/-- The single-quote character, written via its code point. -/
def squote : Char := Char.ofNat 39

/-- Python whitespace characters relevant to `str.strip` / `str.split`. -/
def pyIsSpace (c : Char) : Bool :=
  c = ' ' || c = '\t' || c = '\n' || c = '\x0d' || c = '\x0b' || c = '\x0c'

/-- `pre` is a prefix of `s` (list-level model of `str.startswith`). -/
def pyStartsWith (s pre : String) : Bool :=
  pre.toList.isPrefixOf s.toList

/-- `suf` is a suffix of `s` (list-level model of `str.endswith`). -/
def pyEndsWith (s suf : String) : Bool :=
  suf.toList.reverse.isPrefixOf s.toList.reverse

/-- Code-point lexicographic strict comparison of character lists
(Python `str.__lt__`). -/
def strLtB : List Char → List Char → Bool
  | [], [] => false
  | [], _ :: _ => true
  | _ :: _, [] => false
  | a :: as, b :: bs =>
    if a.toNat < b.toNat then true
    else if b.toNat < a.toNat then false
    else strLtB as bs

/-- Code-point lexicographic comparison of character lists
(Python `str.__le__`). -/
def strLeB : List Char → List Char → Bool
  | [], _ => true
  | _ :: _, [] => false
  | a :: as, b :: bs =>
    if a.toNat < b.toNat then true
    else if b.toNat < a.toNat then false
    else strLeB as bs

/-- Python string comparison `a < b` (code-point lexicographic). -/
def pyStrLt (a b : String) : Bool := strLtB a.toList b.toList

/-- Python string comparison `a <= b` (code-point lexicographic). -/
def pyStrLe (a b : String) : Bool := strLeB a.toList b.toList

/-- Fuel-driven splitting of a character list on a nonempty separator;
the fuel is an upper bound on the number of characters consumed. -/
def splitFuel (sep : List Char) : Nat → List Char → List Char → List (List Char)
  | 0, cs, acc => [acc.reverse ++ cs]
  | fuel + 1, cs, acc =>
    match cs with
    | [] => [acc.reverse]
    | c :: rest =>
      if sep.isPrefixOf (c :: rest) then
        acc.reverse :: splitFuel sep fuel (List.drop sep.length (c :: rest)) []
      else splitFuel sep fuel rest (c :: acc)

/-- Model of Python `str.split(sep)` for a nonempty separator. -/
def pySplitOn (s sep : String) : List String :=
  (splitFuel sep.toList (s.toList.length + 1) s.toList []).map String.mk

/-- Model of Python `sep.join(list)`. -/
def pyJoin (sep : String) : List String → String
  | [] => ("")
  | a :: as => as.foldl (fun acc x => acc ++ sep ++ x) a

/-- Decimal digits of a natural number (fuel-driven). -/
def natDigits : Nat → Nat → List Char
  | 0, _ => []
  | fuel + 1, n =>
    if n < 10 then [Char.ofNat (48 + n)]
    else natDigits fuel (n / 10) ++ [Char.ofNat (48 + n % 10)]

/-- Model of Python `str` on an integer. -/
def pyIntToStr (i : Int) : String :=
  match i with
  | .ofNat n => String.mk (natDigits (n + 1) n)
  | .negSucc m => ("-") ++ String.mk (natDigits (m + 2) (m + 1))

/-- Model of Python `str.strip()` (no arguments): remove leading and
trailing whitespace. -/
def pyStrip (s : String) : String :=
  let l := s.toList.dropWhile pyIsSpace
  let l := (l.reverse.dropWhile pyIsSpace).reverse
  String.mk l

/-- Model of Python `str.strip("'")`: remove leading and trailing
single-quote characters. -/
def pyStripQuotes (s : String) : String :=
  let l := s.toList.dropWhile (fun c => c = squote)
  let l := (l.reverse.dropWhile (fun c => c = squote)).reverse
  String.mk l

/-- Model of Python `str.splitlines()` for `\n`-separated text: like
`splitOn "\n"` except that the empty string yields no lines and a trailing
newline does not produce a final empty line. -/
def pySplitlines (s : String) : List String :=
  if s = ("") then []
  else
    let parts := pySplitOn s ("\n")
    if pyEndsWith s ("\n") then parts.dropLast else parts

/-- Python truthiness of an optional string (`None` and `""` are falsy). -/
def truthy : Option String → Bool
  | none => false
  | some s => s ≠ ""

/-- Scalar Python runtime values appearing inside the literal fragment the
scanner feeds to `eval` (strings and integers; the model keeps literal
collections flat). -/
inductive PyScalar where
  | pstr (s : String)
  | pint (n : Int)
deriving Repr, DecidableEq

/-- Python runtime values produced by evaluating the alias-argument text:
a scalar, or a flat list or tuple of scalars. -/
inductive PyValue where
  | scalar (v : PyScalar)
  | vlist (elts : List PyScalar)
  | vtuple (elts : List PyScalar)
deriving Repr, DecidableEq

/-- Model of Python `repr` on scalar values. -/
def pyRepr : PyScalar → String
  | .pstr s => String.singleton squote ++ s ++ String.singleton squote
  | .pint n => pyIntToStr n

/-- Model of Python `str` on scalar values (used by f-string interpolation
in the renderer). -/
def pyStr : PyScalar → String
  | .pstr s => s
  | .pint n => pyIntToStr n

/-- The parsed trailing string literal attached to a call-site
(`Description` in the Python source).  `section'` models the Python field
`section` (a Lean keyword). -/
structure Description where
  description : String
  default : Option String := none
  type : Option String := none
  section' : Option String := none
deriving Repr, DecidableEq

/-- One step of the loop in `Description.from_desc`: classify a single
(already stripped) line. -/
def fromDescStep (acc : List String × Option String × Option String × Option String)
    (line : String) : List String × Option String × Option String × Option String :=
  let (newDesc, d, t, s) := acc
  if pyStartsWith line (".. default::") then
    (newDesc, some (pyStrip ((pySplitOn line ("::")).getD 1 (""))), t, s)
  else if pyStartsWith line (".. type::") then
    (newDesc, d, some (pyStrip ((pySplitOn line ("::")).getD 1 (""))), s)
  else if pyStartsWith line (".. section::") then
    (newDesc, d, t, some (pyStrip ((pySplitOn line ("::")).getD 1 (""))))
  else
    (newDesc ++ [line], d, t, s)

/-- Model of `Description.from_desc`: iterate over the stripped lines of
the text, pick out directive lines, and keep the rest as the description. -/
def Description.from_desc (desc : String) : Description :=
  let (newDesc, d, t, s) :=
    ((pySplitlines desc).map pyStrip).foldl fromDescStep ([], none, none, none)
  { description := pyJoin ("\n") newDesc
    default := d
    type := t
    section' := s }

/-- One discovered call-site (`EnvironGetCall` in the Python source).
`other` holds the evaluated alias values; Python's type annotation claims
`tuple[str, ...]` but the runtime values are whatever `eval` produced, so
the model uses `PyValue`. -/
structure EnvironGetCall where
  key : String
  description : Option Description := none
  other : List PyScalar := []
  default : Option String := none
  type : Option String := none
deriving Repr, DecidableEq

/-- The `elif self.type:` / `else` part of `EnvironGetCall.get_type`
(reached when there is no truthy annotation type). -/
def getTypeFromLiteral (t? : Option String) : String :=
  match t? with
  | some t =>
    if t = ("") then ("str")
    else if t = ("int") || t = ("float") || t = ("str") || t = ("bool") then t
    else if t = ("bool_parser") then ("bool")
    else t
  | none => ("str")

/-- Model of `EnvironGetCall.get_type`. -/
def EnvironGetCall.get_type (c : EnvironGetCall) : String :=
  let annType := c.description.bind Description.type
  if truthy annType then annType.getD ("")
  else getTypeFromLiteral c.type

/-- Whether `get_type` hits the `_warning(f"Unknown type: ...")` branch. -/
def EnvironGetCall.get_type_warns (c : EnvironGetCall) : Bool :=
  !(truthy (c.description.bind Description.type)) &&
    (match c.type with
     | some t =>
       t ≠ ("") && !(t = ("int") || t = ("float") || t = ("str") || t = ("bool")) &&
         t ≠ ("bool_parser")
     | none => false)

/-- Model of `EnvironGetCall.get_default`. -/
def EnvironGetCall.get_default (c : EnvironGetCall) : Option String :=
  let annDefault := c.description.bind Description.default
  if truthy annDefault then annDefault
  else if truthy c.default then c.default
  else none

/-- Model of `EnvironGetCall.is_required`. -/
def EnvironGetCall.is_required (c : EnvironGetCall) : Bool :=
  c.get_default = none

/-- Model of the `EnvironGetCall.section` property (a Lean keyword, hence
`sect`). -/
def EnvironGetCall.sect (c : EnvironGetCall) : Option String :=
  if c.is_required then some ("REQUIRED")
  else
    match c.description with
    | some d => if truthy d.section' then d.section' else none
    | none => none

/-- Longest common prefix of two character lists (used by the
`textwrap.dedent` model to intersect indentation prefixes). -/
def commonPrefix : List Char → List Char → List Char
  | a :: as, b :: bs => if a = b then a :: commonPrefix as bs else []
  | _, _ => []

/-- Model of `textwrap.dedent`: lines consisting solely of spaces and tabs
are normalized to empty, the longest common leading space/tab prefix of
the remaining nonempty lines is computed, and that margin is removed from
every line carrying it. -/
def pyDedent (text : String) : String :=
  let lines := pySplitOn text ("\n")
  let lines := lines.map (fun l =>
    if l ≠ ("") && l.toList.all (fun c => c = ' ' || c = '\t') then ("") else l)
  let indents := lines.filterMap (fun l =>
    if l = ("") then none
    else some (String.mk (l.toList.takeWhile (fun c => c = ' ' || c = '\t'))))
  let margin := match indents with
    | [] => ("")
    | i :: is => is.foldl (fun m ind => String.mk (commonPrefix m.toList ind.toList)) i
  let lines := lines.map (fun l =>
    if margin ≠ ("") && pyStartsWith l margin then
      String.mk (l.toList.drop margin.toList.length)
    else l)
  pyJoin ("\n") lines

/-- The fragment of the Python AST traversed by the scanner.  Statement
and expression nodes carry their source line number, as in `ast`.
`assign` covers `ast.Assign` (the scanner treats `ast.AnnAssign`
identically); `exprStmt` is `ast.Expr`; `constStr` / `constInt` are
`ast.Constant` nodes; `call` keywords model `ast.keyword` (whose `arg` is
`None` for `**kwargs`). -/
inductive Node where
  | module (body : List Node)
  | assign (lineno : Nat) (targets : List Node) (value : Node)
  | exprStmt (lineno : Nat) (value : Node)
  | ifStmt (lineno : Nat) (test : Node) (body : List Node) (orelse : List Node)
  | call (lineno : Nat) (func : Node) (args : List Node)
      (keywords : List (Option String × Node))
  | name (lineno : Nat) (id : String)
  | constStr (lineno : Nat) (s : String)
  | constInt (lineno : Nat) (n : Int)
  | listExpr (lineno : Nat) (elts : List Node)
  | tupleExpr (lineno : Nat) (elts : List Node)

/-- The `lineno` attribute (0 for the module node, which has none). -/
def Node.lineno : Node → Nat
  | .module _ => 0
  | .assign ln _ _ => ln
  | .exprStmt ln _ => ln
  | .ifStmt ln _ _ _ => ln
  | .call ln _ _ _ => ln
  | .name ln _ => ln
  | .constStr ln _ => ln
  | .constInt ln _ => ln
  | .listExpr ln _ => ln
  | .tupleExpr ln _ => ln

/-- Model of `ast.iter_child_nodes`, in field order. -/
def Node.children : Node → List Node
  | .module body => body
  | .assign _ ts v => ts ++ [v]
  | .exprStmt _ v => [v]
  | .ifStmt _ t b o => t :: (b ++ o)
  | .call _ f args kws => f :: (args ++ kws.map Prod.snd)
  | .name _ _ => []
  | .constStr _ _ => []
  | .constInt _ _ => []
  | .listExpr _ es => es
  | .tupleExpr _ es => es

mutual
/-- Structural size of a node (1 + sizes of all children); measure for
the breadth-first walk. -/
def Node.size : Node → Nat
  | .module body => 1 + sizeListAux body
  | .assign _ ts v => 1 + sizeListAux ts + Node.size v
  | .exprStmt _ v => 1 + Node.size v
  | .ifStmt _ t b o => 1 + Node.size t + sizeListAux b + sizeListAux o
  | .call _ f args kws => 1 + Node.size f + sizeListAux args + sizeKwAux kws
  | .name _ _ => 1
  | .constStr _ _ => 1
  | .constInt _ _ => 1
  | .listExpr _ es => 1 + sizeListAux es
  | .tupleExpr _ es => 1 + sizeListAux es

/-- Sum of node sizes over a list. -/
def sizeListAux : List Node → Nat
  | [] => 0
  | n :: ns => Node.size n + sizeListAux ns

/-- Sum of node sizes over keyword arguments. -/
def sizeKwAux : List (Option String × Node) → Nat
  | [] => 0
  | p :: ks => Node.size p.2 + sizeKwAux ks
end

/-- Tactic-checkable bundle of size facts, proved inline where needed:
`sizeListAux` distributes over append, `sizeKwAux` matches the mapped
list, every node has positive size, and the children of a node are
strictly smaller than the node. -/
def sizeFacts : Prop :=
  (∀ (l₁ l₂ : List Node), sizeListAux (l₁ ++ l₂) = sizeListAux l₁ + sizeListAux l₂) ∧
  (∀ (m : Node), sizeListAux m.children < m.size) ∧
  (∀ (m : Node), 1 ≤ m.size)

def sizeFacts_holds : sizeFacts := by
  have happ : ∀ (l₁ l₂ : List Node),
      sizeListAux (l₁ ++ l₂) = sizeListAux l₁ + sizeListAux l₂ := by
    intro l₁ l₂
    induction l₁ with
    | nil => simp [sizeListAux]
    | cons m ms ih => simp [sizeListAux, ih]; omega
  have hkw : ∀ (ks : List (Option String × Node)),
      sizeKwAux ks = sizeListAux (ks.map Prod.snd) := by
    intro ks
    induction ks with
    | nil => rfl
    | cons kv ks ih => simp [sizeKwAux, sizeListAux, ih]
  refine ⟨happ, ?_, ?_⟩
  · intro m
    cases m <;> simp [Node.children, Node.size, sizeListAux, happ, hkw] <;> omega
  · intro m
    cases m <;> simp [Node.size] <;> omega

/-- Fuel-driven breadth-first traversal; the fuel bounds the number of
nodes ever enqueued (the total size of the queue suffices, since each
step replaces a node by its strictly smaller children). -/
def walkBFSFuel : Nat → List Node → List Node
  | _, [] => []
  | 0, _ :: _ => []
  | fuel + 1, n :: rest => n :: walkBFSFuel fuel (rest ++ n.children)

/-- Model of `ast.walk`: breadth-first traversal starting from a queue of
nodes, yielding each node and appending its children to the queue. -/
def walkBFS (q : List Node) : List Node :=
  walkBFSFuel (sizeListAux q) q

/-- Model of `is_environ_get`: a call whose function is the bare name
`environ_get`. -/
def is_environ_get : Node → Bool
  | .call _ (.name _ f) _ _ => f = ("environ_get")
  | _ => false

mutual
/-- Model of `ast.unparse` on the expression fragment the scanner feeds
to it (statement constructors are never unparsed by the scanner). -/
def unparse : Node → String
  | .name _ id => id
  | .constStr _ s => String.singleton squote ++ s ++ String.singleton squote
  | .constInt _ n => pyIntToStr n
  | .listExpr _ es => ("[") ++ pyJoin (", ") (unparseList es) ++ ("]")
  | .tupleExpr _ [e] => ("(") ++ unparse e ++ (",)")
  | .tupleExpr _ es => ("(") ++ pyJoin (", ") (unparseList es) ++ (")")
  | .call _ f args kws =>
      unparse f ++ ("(") ++
        pyJoin (", ") (unparseList args ++ unparseKw kws) ++ (")")
  | .module _ => ("<module>")
  | .assign _ _ _ => ("<assign>")
  | .exprStmt _ _ => ("<expr>")
  | .ifStmt _ _ _ _ => ("<if>")

/-- `unparse` mapped over a list of nodes. -/
def unparseList : List Node → List String
  | [] => []
  | n :: ns => unparse n :: unparseList ns

/-- `unparse` over keyword arguments, rendered `name=value`. -/
def unparseKw : List (Option String × Node) → List String
  | [] => []
  | p :: ks => ((p.1.getD ("**")) ++ ("=") ++ unparse p.2) :: unparseKw ks
end

/-- Model of the `args` component of `get_args_kwargs`: each positional
argument unparsed and stripped of surrounding single quotes. -/
def get_args : Node → List String
  | .call _ _ args _ => args.map (fun a => pyStripQuotes (unparse a))
  | _ => []

/-- Model of the `kwargs` component of `get_args_kwargs` (keywords with a
name; `**kwargs` entries are filtered out, as in the comprehension). -/
def get_kwargs : Node → List (String × String)
  | .call _ _ _ kws =>
      kws.filterMap (fun p =>
        p.1.map (fun nm => (nm, pyStripQuotes (unparse p.2))))
  | _ => []

/-- Lookup in the dictionary built by a `dict` comprehension: the last
binding of a key wins. -/
def pyDictGet (l : List (String × String)) (k : String) : Option String :=
  (l.reverse.find? (fun p => p.1 = k)).map Prod.snd

/-- Outcome of Python `eval` on the alias-argument text.  The scanner
only catches `SyntaxError`; every other exception propagates. -/
inductive EvalResult where
  | ok (v : PyValue)
  | syntaxError
  | raised
deriving Repr, DecidableEq

/-- Drop leading whitespace characters. -/
def skipWs (cs : List Char) : List Char := cs.dropWhile pyIsSpace

/-- Result of parsing one element inside a literal collection. -/
inductive ElemResult where
  | ok (v : PyScalar) (rest : List Char)
  | nameErr
  | synErr
deriving Repr, DecidableEq

/-- Value of a list of decimal digit characters. -/
def digitsToNat (cs : List Char) : Nat :=
  cs.foldl (fun acc c => acc * 10 + (c.toNat - 48)) 0

/-- Parse one scalar element of a literal collection: a single-quoted
string or an integer.  A bare identifier models a `NameError` raised by
`eval`; anything else is a `SyntaxError`. -/
def parseElem (cs : List Char) : ElemResult :=
  match skipWs cs with
  | [] => .synErr
  | c :: rest =>
    if c = squote then
      let content := rest.takeWhile (fun x => x ≠ squote)
      match rest.drop content.length with
      | _ :: rest' => .ok (.pstr (String.mk content)) rest'
      | [] => .synErr
    else if c.isDigit then
      let digits := (c :: rest).takeWhile Char.isDigit
      .ok (.pint (Int.ofNat (digitsToNat digits))) ((c :: rest).drop digits.length)
    else if c = ('-') then
      match rest with
      | d :: _ =>
        if d.isDigit then
          let digits := rest.takeWhile Char.isDigit
          .ok (.pint (-(Int.ofNat (digitsToNat digits)))) (rest.drop digits.length)
        else if d.isAlpha || d = ('_') then .nameErr else .synErr
      | [] => .synErr
    else if c.isAlpha || c = ('_') then .nameErr
    else .synErr

/-- Result of parsing a comma-separated element sequence. -/
inductive SeqResult where
  | ok (vs : List PyScalar) (rest : List Char)
  | nameErr
  | synErr
deriving Repr, DecidableEq

/-- Parse elements up to a closing bracket, allowing a trailing comma
(fuel-driven; the fuel is an upper bound on the number of elements). -/
def parseSeq (close : Char) : Nat → List Char → SeqResult
  | 0, _ => .synErr
  | fuel + 1, cs =>
    match skipWs cs with
    | [] => .synErr
    | c :: rest =>
      if c = close then .ok [] rest
      else
        match parseElem (c :: rest) with
        | .nameErr => .nameErr
        | .synErr => .synErr
        | .ok v cs' =>
          match skipWs cs' with
          | [] => .synErr
          | c' :: rest' =>
            if c' = close then .ok [v] rest'
            else if c' = (',') then
              match parseSeq close fuel rest' with
              | .ok vs r => .ok (v :: vs) r
              | e => e
            else .synErr

/-- Model of Python `eval` restricted to the literal fragment the scanner
can feed it: flat list/tuple literals of strings and integers (this is
what `ast.unparse` produces for literal alias arguments).  A
parenthesized single expression without a trailing comma evaluates to the
expression itself, as in Python.  Bare identifiers raise (`NameError`),
modelled by `.raised`; unparseable text is a `SyntaxError`. -/
def pyEvalStr (s : String) : EvalResult :=
  let cs := skipWs s.toList
  match cs with
  | ('[') :: rest =>
    match parseSeq (']') (rest.length + 1) rest with
    | .ok vs r => if skipWs r = [] then .ok (.vlist vs) else .syntaxError
    | .nameErr => .raised
    | .synErr => .syntaxError
  | ('(') :: rest =>
    match skipWs rest with
    | (')') :: r => if skipWs r = [] then .ok (.vtuple []) else .syntaxError
    | cs' =>
      match parseElem cs' with
      | .nameErr => .raised
      | .synErr => .syntaxError
      | .ok v cs'' =>
        match skipWs cs'' with
        | (')') :: r => if skipWs r = [] then .ok (.scalar v) else .syntaxError
        | (',') :: r =>
          match parseSeq (')') (r.length + 1) r with
          | .ok vs r' => if skipWs r' = [] then .ok (.vtuple (v :: vs)) else .syntaxError
          | .nameErr => .raised
          | .synErr => .syntaxError
        | _ => .syntaxError
  | _ => .syntaxError

/-- Outcome of the alias-argument block of `_process_node`. -/
inductive OtherResult where
  | ok (other : List PyScalar)
  | assertError
  | raisedErr
deriving Repr, DecidableEq

/-- The `other`-argument block of `_process_node`: a truthy value whose
text starts with `(` or `[` is passed to `eval` (only `SyntaxError` is
caught, leaving `other` empty); any other truthy value becomes a
one-element tuple holding the text; then `assert isinstance(other,
tuple)` fails whenever `eval` produced anything but a tuple. -/
def extractOther (o? : Option String) : OtherResult :=
  match o? with
  | none => .ok []
  | some s =>
    match s.toList with
    | [] => .ok []
    | c :: _ =>
      if c = ('(') || c = ('[') then
        match pyEvalStr s with
        | .ok (.vtuple es) => .ok es
        | .ok _ => .assertError
        | .syntaxError => .ok []
        | .raised => .raisedErr
      else .ok [PyScalar.pstr s]

/-- The exceptions the scanner can raise: the duplicate-key `ValueError`,
the `IndexError` from `args[0]` on a call without positional arguments,
the `AssertionError` from the tuple assertion, a propagated non-syntax
exception out of `eval`, and the `KeyError` from attaching an annotation
text to an unrecorded key. -/
inductive ScanError where
  | duplicateKey (key : String) (lineno : Nat)
  | indexError
  | assertionError
  | raisedError
  | keyError (key : String)
deriving Repr, DecidableEq

/-- Ordered-dictionary membership test (`key in environ_get_calls`). -/
def listContains (l : List (String × EnvironGetCall)) (k : String) : Bool :=
  l.any (fun p => p.1 = k)

/-- Ordered-dictionary lookup (`environ_get_calls[key]`). -/
def listGet? (l : List (String × EnvironGetCall)) (k : String) :
    Option EnvironGetCall :=
  (l.find? (fun p => p.1 = k)).map Prod.snd

/-- Ordered-dictionary assignment (`environ_get_calls[key] = v`): update
in place if the key exists, else append. -/
def listSet (l : List (String × EnvironGetCall)) (k : String)
    (v : EnvironGetCall) : List (String × EnvironGetCall) :=
  match l with
  | [] => [(k, v)]
  | p :: rest => if p.1 = k then (p.1, v) :: rest else p :: listSet rest k v

/-- The mutable state threaded through `find_environ_get_calls`:
the ordered dictionary `environ_get_calls` and the set
`seen_linenumbers`. -/
structure ScanState where
  calls : List (String × EnvironGetCall) := []
  seen : List Nat := []
deriving Repr, DecidableEq

/-- Model of `_process_node`: extract the key (first positional argument;
`IndexError` when absent), fail on a key already recorded as a primary
key, evaluate the alias argument, fail if any alias collides with a
recorded primary key, then record the call and mark the line as seen. -/
def processNode (node : Node) (st : ScanState) : Except ScanError ScanState :=
  let args := get_args node
  let kwargs := get_kwargs node
  match args with
  | [] => .error .indexError
  | key :: _ =>
    if listContains st.calls key then .error (.duplicateKey key node.lineno)
    else
      match extractOther (pyDictGet kwargs ("other")) with
      | .assertError => .error .assertionError
      | .raisedErr => .error .raisedError
      | .ok other =>
        if other.any (fun v =>
            match v with
            | .pstr s => listContains st.calls s
            | _ => false) then
          .error (.duplicateKey key node.lineno)
        else
          .ok { calls := st.calls ++
                  [(key, { key := key, other := other,
                           default := pyDictGet kwargs ("default"),
                           type := pyDictGet kwargs ("type") })]
                seen := node.lineno :: st.seen }

/-- One iteration of the loop body of `find_environ_get_calls`: the
assignment branch, the standalone-call branch, and the
annotation-attachment branch (`prev_node` is the previously walked
node). -/
def scanStep (node : Node) (prev : Option Node) (st : ScanState) :
    Except ScanError ScanState :=
  match node with
  | .assign ln _ v =>
      if is_environ_get v && !(st.seen.contains ln) then processNode v st
      else .ok st
  | .call ln _ _ _ =>
      if is_environ_get node && !(st.seen.contains ln) then processNode node st
      else .ok st
  | .exprStmt ln v =>
      match v, prev with
      | .constStr _ s, some (.assign _ _ pv) =>
        if is_environ_get pv then
          match get_args pv with
          | [] => .error .indexError
          | key :: _ =>
            match listGet? st.calls key with
            | none => .error (.keyError key)
            | some r =>
              let d := Description.from_desc (pyStrip (pyDedent s))
              let r' := { r with description := some d }
              .ok { calls := listSet st.calls key r', seen := ln :: st.seen }
        else .ok st
      | _, _ => .ok st
  | _ => .ok st

/-- The loop of `find_environ_get_calls` over the walked node list,
threading `prev_node` and the scan state. -/
def scanLoop : List Node → Option Node → ScanState → Except ScanError ScanState
  | [], _, st => .ok st
  | n :: rest, prev, st =>
    match scanStep n prev st with
    | .error e => .error e
    | .ok st' => scanLoop rest (some n) st'

/-- Model of `find_environ_get_calls`: walk the parsed module
breadth-first and fold the loop body over the walked nodes. -/
def findEnvironGetCalls (m : Node) : Except ScanError (List (String × EnvironGetCall)) :=
  (scanLoop (walkBFS [m]) none {}).map ScanState.calls

/-- Queue-structured equivalent of the scan loop, used in proofs: it
processes the walk queue directly instead of the flattened walk list. -/
def scanQueue : List Node → Option Node → ScanState → Except ScanError ScanState
  | [], _, st => .ok st
  | n :: rest, prev, st =>
    match scanStep n prev st with
    | .error e => .error e
    | .ok st' => scanQueue (rest ++ n.children) (some n) st'
termination_by q => sizeListAux q
decreasing_by
  have happ := sizeFacts_holds.1
  have hch := sizeFacts_holds.2.1 n
  simp [sizeListAux, happ]
  omega

/-- Append an entry to its section group, creating the group at the end
on first use (models `calls_by_section[call.section][name] = call`). -/
def groupSet (acc : List (Option String × List (String × EnvironGetCall)))
    (s : Option String) (p : String × EnvironGetCall) :
    List (Option String × List (String × EnvironGetCall)) :=
  match acc with
  | [] => [(s, [p])]
  | g :: rest => if g.1 = s then (g.1, g.2 ++ [p]) :: rest else g :: groupSet rest s p

/-- The `sections.remove("REQUIRED"); sections.insert(0, "REQUIRED")`
step of `sort_by_section`, guarded by membership. -/
def moveReqFirst (sections : List (Option String)) : List (Option String) :=
  if sections.contains (some ("REQUIRED")) then
    some ("REQUIRED") :: sections.erase (some ("REQUIRED"))
  else sections

/-- The `sections.remove(None); sections.append(None)` step of
`sort_by_section`, guarded by membership. -/
def moveNoneLast (sections : List (Option String)) : List (Option String) :=
  if sections.contains none then sections.erase none ++ [none] else sections

/-- The first two steps of `sort_by_section`: group the calls by their
`section` property (insertion order preserved), then sort each group's
entries by key.  Python's stable `sorted` is modelled by Mathlib's stable
`List.insertionSort` (any two stable sorts of a total preorder agree),
with Python string comparison as the order. -/
def groupedOf (calls : List (String × EnvironGetCall)) :
    List (Option String × List (String × EnvironGetCall)) :=
  (calls.foldl (fun acc p => groupSet acc p.2.sect p) []).map
    (fun g => (g.1, List.insertionSort (fun a b => pyStrLe a.1 b.1) g.2))

/-- The section-ordering step of `sort_by_section`: sort section names
ascending treating `None` as the empty string, then move `REQUIRED` to
the front and `None` to the back. -/
def sectionsOf (calls : List (String × EnvironGetCall)) : List (Option String) :=
  moveNoneLast (moveReqFirst
    (List.insertionSort (fun a b => pyStrLe (a.getD ("")) (b.getD ("")))
      ((groupedOf calls).map Prod.fst)))

/-- Model of `sort_by_section`: the groups of `groupedOf` rebuilt in the
order of `sectionsOf`. -/
def sortBySection (calls : List (String × EnvironGetCall)) :
    List (Option String × List (String × EnvironGetCall)) :=
  (sectionsOf calls).map (fun s =>
    (s, (((groupedOf calls).find? (fun g => g.1 = s)).map Prod.snd).getD []))

/-- The fixed note line emitted after the title. -/
def generatedNote : String :=
  ("_This document is automatically generated from the ``environ_get`` calls in the source code._")

/-- The lines the renderer emits for a single entry: optional reference
anchor, the heading (with the aliases in parentheses when present), the
nonempty description lines, and — when the effective default is truthy —
the default/type line.  Each `_add` call appends a trailing blank
line. -/
def renderEntry (refs : Bool) (p : String × EnvironGetCall) : List String :=
  let nm := p.1
  let call := p.2
  (if refs then [(".. _") ++ nm ++ (":"), ("")] else []) ++
  (if call.other = [] then [("``") ++ nm ++ ("``"), ("")]
   else
     let otherArgs := call.other.map (fun a => ("``") ++ pyStr a ++ ("``"))
     [("``") ++ nm ++ ("`` (aliases: ") ++
       String.intercalate (", ") otherArgs ++ (")"), ("")]) ++
  (match call.description with
   | some d => ((pySplitlines d.description).filter (fun ln => ln ≠ (""))) ++ [("")]
   | none => []) ++
  (if truthy call.get_default then
     [("**default**: ") ++ call.get_default.getD ("") ++ (" `(") ++
       call.get_type ++ (")`"), ("")]
   else [])

/-- Model of `render_doc_lines`: title, generated-from-source note, then
each section heading with its underline followed by its entries. -/
def renderDocLines
    (callsBySection : List (Option String × List (String × EnvironGetCall)))
    (refs : Bool) : List String :=
  let l := [("Environment Variables"), ("====================="), ("")]
  let l := l ++ [generatedNote, ("")]
  callsBySection.foldl (fun acc g =>
    let heading :=
      match g.1 with
      | some s => [s, String.mk (List.replicate s.toList.length ('-')), ("")]
      | none => [("Miscellaneous"), ("-------------"), ("")]
    acc ++ heading ++ g.2.foldl (fun a p => a ++ renderEntry refs p) []) l

/-- Model of `generate_environ_doc`: scan, organize, render, join with
newlines.  Uncaught Python exceptions are the `Except.error` case. -/
def generate_environ_doc (m : Node) (refs : Bool) : Except ScanError String :=
  (findEnvironGetCalls m).map (fun calls =>
    pyJoin ("\n") (renderDocLines (sortBySection calls) refs))

mutual
/-- All recognized `environ_get` call nodes occurring anywhere inside a
node (the node itself included when it is one), in syntactic order. -/
def Node.deepCalls : Node → List Node
  | .module body => deepCallsList body
  | .assign _ ts v => deepCallsList ts ++ Node.deepCalls v
  | .exprStmt _ v => Node.deepCalls v
  | .ifStmt _ t b o => Node.deepCalls t ++ deepCallsList b ++ deepCallsList o
  | .call ln f args kws =>
      (if is_environ_get (.call ln f args kws) then [Node.call ln f args kws]
       else []) ++ Node.deepCalls f ++ deepCallsList args ++ deepCallsKw kws
  | .name _ _ => []
  | .constStr _ _ => []
  | .constInt _ _ => []
  | .listExpr _ es => deepCallsList es
  | .tupleExpr _ es => deepCallsList es

/-- `deepCalls` over a list of nodes. -/
def deepCallsList : List Node → List Node
  | [] => []
  | n :: ns => Node.deepCalls n ++ deepCallsList ns

/-- `deepCalls` over keyword arguments. -/
def deepCallsKw : List (Option String × Node) → List Node
  | [] => []
  | p :: ks => Node.deepCalls p.2 ++ deepCallsKw ks
end

/-- The key material a recognized call contributes: its primary key
followed by the comparable (string) aliases its `other` argument
evaluates to.  A malformed call (no positional argument) contributes
nothing; a call whose alias evaluation raises contributes only its
primary key, since the scan aborts before the alias check. -/
def Node.callKeys (n : Node) : List String :=
  if is_environ_get n then
    match get_args n with
    | [] => []
    | k :: _ =>
      k :: (match extractOther (pyDictGet (get_kwargs n) ("other")) with
            | .ok other => other.filterMap (fun v =>
                match v with
                | .pstr s => some s
                | _ => none)
            | _ => [])
  else []

/-- All primary keys and string aliases of all recognized calls in a
scanned module, in syntactic order: the claim "all primary keys and
aliases across the document are pairwise distinct" is `(docKeys
m).Nodup`. -/
def docKeys (m : Node) : List String :=
  (m.deepCalls.map Node.callKeys).flatten

/-- First-biased choice between optional values (used to state that a
later directive occurrence overrides an earlier accumulator value). -/
def optOr (a b : Option String) : Option String :=
  match a with
  | some v => some v
  | none => b

/-- Directive kinds recognized inside an annotation text. -/
inductive DirKind where
  | dflt
  | typ
  | sec
deriving Repr, DecidableEq

/-- The directive kind of a (stripped) line: the three prefixes are
tested in order and the first match wins. -/
def dirKind (l : String) : Option DirKind :=
  if pyStartsWith l (".. default::") then some .dflt
  else if pyStartsWith l (".. type::") then some .typ
  else if pyStartsWith l (".. section::") then some .sec
  else none

/-- The stored value of a directive line: the text between the first and
second `::` delimiters, trimmed (`line.split("::")[1].strip()`). -/
def directiveValue (l : String) : String :=
  pyStrip ((pySplitOn l ("::")).getD 1 (""))

/-- The retained value for a directive kind: the value of the last line
of that kind (last occurrence wins). -/
def lastDirective (ls : List String) (k : DirKind) : Option String :=
  ((ls.filter (fun l => dirKind l = some k)).map directiveValue).getLast?

/-- The amended C4 claim, written from its words rather than from the
loop: strip each line, drop the directive lines from the description
while keeping the others in order, and for each directive kind retain the
last occurrence's value (text between the first and second `::`,
trimmed). -/
def fromDescSpec (desc : String) : Description :=
  let ls := (pySplitlines desc).map pyStrip
  { description := pyJoin ("\n") (ls.filter (fun l => dirKind l = none))
    default := lastDirective ls .dflt
    type := lastDirective ls .typ
    section' := lastDirective ls .sec }

/-- Rank of a section name in the organizer's output order: `REQUIRED`
first, named sections by name, the unnamed group last. -/
def sectionKey : Option String → Nat × String
  | some s => if s = ("REQUIRED") then (0, ("")) else (1, s)
  | none => (2, (""))

/-- The strict section order of the organizer's output. -/
def sectionLT (a b : Option String) : Prop :=
  (sectionKey a).1 < (sectionKey b).1 ∨
    ((sectionKey a).1 = (sectionKey b).1 ∧
      pyStrLt (sectionKey a).2 (sectionKey b).2 = true)

/-- A recognized `environ_get` call with a string-literal key. -/
def egCall (ln : Nat) (key : String) (kws : List (Option String × Node)) : Node :=
  .call ln (.name ln ("environ_get")) [.constStr ln key] kws

/-- `a = environ_get('A', other='X')` then `x = environ_get('X')`: the
second call's primary key collides with the first call's alias. -/
def aliasCollisionModule : Node := .module
  [ .assign 1 [.name 1 ("a")] (egCall 1 ("A") [(some ("other"), .constStr 1 ("X"))]),
    .assign 2 [.name 2 ("x")] (egCall 2 ("X") []) ]

/-- Two calls with the same primary key `A` on lines 1 and 2. -/
def primaryCollisionModule : Node := .module
  [ .assign 1 [.name 1 ("a")] (egCall 1 ("A") []),
    .assign 2 [.name 2 ("b")] (egCall 2 ("A") []) ]

/-- Two calls with distinct keys `A` and `B`. -/
def distinctKeysModule : Node := .module
  [ .assign 1 [.name 1 ("a")] (egCall 1 ("A") []),
    .assign 2 [.name 2 ("b")] (egCall 2 ("B") []) ]

/-- `if c:` with `A = environ_get('A')` as the last statement of the
if-body and the bare string literal `'doc'` as the first statement of the
else-branch: in source text the string does not follow the assignment
(it sits in a different block), but in `ast.walk` order it is the
immediately following node. -/
def elseBranchDocModule : Node := .module
  [ .ifStmt 1 (.name 1 ("c"))
      [.assign 2 [.name 2 ("A")] (egCall 2 ("A") [])]
      [.exprStmt 4 (.constStr 4 ("doc"))] ]

/-- `a = environ_get('A', other=(1, 2))`: an alias tuple of integers. -/
def intTupleAliasModule : Node := .module
  [ .assign 1 [.name 1 ("a")]
      (egCall 1 ("A") [(some ("other"), .tupleExpr 1 [.constInt 1 1, .constInt 1 2])]) ]

/-- `a = environ_get('A', other=['X', 'Y'])`: an alias list literal. -/
def listAliasModule : Node := .module
  [ .assign 1 [.name 1 ("a")]
      (egCall 1 ("A") [(some ("other"), .listExpr 1 [.constStr 1 ("X"), .constStr 1 ("Y")])]) ]

/-- `a = environ_get('A', other=('X', 'Y'))`: an alias tuple literal. -/
def tupleAliasModule : Node := .module
  [ .assign 1 [.name 1 ("a")]
      (egCall 1 ("A") [(some ("other"), .tupleExpr 1 [.constStr 1 ("X"), .constStr 1 ("Y")])]) ]

/-- The call-site dictionary produced by scanning `tupleAliasModule`. -/
def tupleAliasCalls : List (String × EnvironGetCall) :=
  [(("A"), { key := ("A"), other := [.pstr ("X"), .pstr ("Y")] })]

/-- `a = environ_get()`: a recognized call without a key argument. -/
def malformedCallModule : Node := .module
  [ .assign 1 [.name 1 ("a")] (.call 1 (.name 1 ("environ_get")) [] []) ]

/-- `a = environ_get('A'); b = environ_get()` on one source line: the
malformed second call shares the line number of the first. -/
def skippedMalformedModule : Node := .module
  [ .assign 1 [.name 1 ("a")] (egCall 1 ("A") []),
    .assign 1 [.name 1 ("b")] (.call 1 (.name 1 ("environ_get")) [] []) ]

/-- Call records landing in the sections `REQUIRED`, `B`, `A` and `None`
(in that insertion order). -/
def sectionOrderCalls : List (String × EnvironGetCall) :=
  [ (("R1"), { key := ("R1") }),
    (("B1"), { key := ("B1"), default := some ("1"),
               description := some { description := (""), section' := some ("B") } }),
    (("A1"), { key := ("A1"), default := some ("1"),
               description := some { description := (""), section' := some ("A") } }),
    (("M1"), { key := ("M1"), default := some ("1") }) ]

/-- `strLeB` is total. -/
def strLeB_total : ∀ (a b : List Char), strLeB a b = true ∨ strLeB b a = true := by
  intro a
  induction a with
  | nil => intro b; left; rfl
  | cons c cs ih =>
    intro b
    cases b with
    | nil => right; rfl
    | cons d ds =>
      simp only [strLeB]
      rcases Nat.lt_trichotomy c.toNat d.toNat with h | h | h
      · left; simp [h]
      · have h2 : ¬c.toNat < d.toNat := by omega
        have h3 : ¬d.toNat < c.toNat := by omega
        rcases ih ds with h4 | h4
        · left; simp [h2, h3, h4]
        · right; simp [h2, h3, h4]
      · right; simp [h]

/-- `strLeB` is transitive. -/
def strLeB_trans : ∀ (a b c : List Char),
    strLeB a b = true → strLeB b c = true → strLeB a c = true := by
  intro a
  induction a with
  | nil => intro b c _ _; rfl
  | cons x xs ih =>
    intro b c hab hbc
    cases b with
    | nil => simp [strLeB] at hab
    | cons y ys =>
      cases c with
      | nil => simp [strLeB] at hbc
      | cons z zs =>
        simp only [strLeB] at hab hbc ⊢
        rcases Nat.lt_trichotomy x.toNat y.toNat with h1 | h1 | h1
        · rcases Nat.lt_trichotomy y.toNat z.toNat with h2 | h2 | h2
          · have h3 : x.toNat < z.toNat := h1.trans h2
            simp [h3]
          · have h3 : x.toNat < z.toNat := h2 ▸ h1
            simp [h3]
          · simp [Nat.lt_asymm h2, h2] at hbc
        · have hxy1 : ¬x.toNat < y.toNat := by omega
          have hxy2 : ¬y.toNat < x.toNat := by omega
          simp [hxy1, hxy2] at hab
          rcases Nat.lt_trichotomy y.toNat z.toNat with h2 | h2 | h2
          · have h3 : x.toNat < z.toNat := by omega
            simp [h3]
          · have h3 : ¬x.toNat < z.toNat := by omega
            have h4 : ¬z.toNat < x.toNat := by omega
            have h5 : ¬y.toNat < z.toNat := by omega
            have h6 : ¬z.toNat < y.toNat := by omega
            simp [h5, h6] at hbc
            simp [h3, h4, ih _ _ hab hbc]
          · simp [Nat.lt_asymm h2, h2] at hbc
        · simp [Nat.lt_asymm h1, h1] at hab

instance : IsTotal (String × EnvironGetCall)
    (fun a b => pyStrLe a.1 b.1 = true) :=
  ⟨fun a b => strLeB_total a.1.toList b.1.toList⟩

instance : IsTrans (String × EnvironGetCall)
    (fun a b => pyStrLe a.1 b.1 = true) :=
  ⟨fun _ _ _ h₁ h₂ => strLeB_trans _ _ _ h₁ h₂⟩

instance : IsTotal (Option String)
    (fun a b => pyStrLe (a.getD ("")) (b.getD ("")) = true) :=
  ⟨fun a b => strLeB_total _ _⟩

instance : IsTrans (Option String)
    (fun a b => pyStrLe (a.getD ("")) (b.getD ("")) = true) :=
  ⟨fun _ _ _ h₁ h₂ => strLeB_trans _ _ _ h₁ h₂⟩

/-- The line number and key material of a call node: all the information
the duplicate-key analysis needs about an occurrence. -/
def callView (n : Node) : Nat × List String := (n.lineno, n.callKeys)

/-- Views of the recognized calls sitting directly in the queue. -/
def topCallViews (q : List Node) : Multiset (Nat × List String) :=
  ((q.filter (fun n => is_environ_get n)).map callView : List (Nat × List String))

/-- Views of all recognized calls in the forest rooted at the queue. -/
def deepCallViews (q : List Node) : Multiset (Nat × List String) :=
  ((deepCallsList q).map callView : List (Nat × List String))

/-- The key material of a view, as a multiset. -/
def viewKeys (v : Nat × List String) : Multiset String := (v.2 : Multiset String)

/-- Invariant of the duplicate-key analysis: there is a multiset
`procKeys` of already-consumed key material and a multiset `Pf` of
already-processed calls still sitting in the queue (processed early at
their parent assignment) such that the recorded primary keys lie in
`procKeys`, `Pf` members are top-level queue calls with seen line
numbers, nonempty key material inside `procKeys`, and `procKeys` plus the
key material of the not-yet-processed calls of the forest is duplicate
free. -/
def ScanInv (st : ScanState) (q : List Node) : Prop :=
  ∃ (procKeys : Multiset String) (Pf : Multiset (Nat × List String)),
    (∀ k ∈ st.calls.map Prod.fst, k ∈ procKeys) ∧
    Pf ≤ topCallViews q ∧
    (∀ v ∈ Pf, v.1 ∈ st.seen) ∧
    (∀ v ∈ Pf, v.2 ≠ [] ∧ ∀ k ∈ v.2, k ∈ procKeys) ∧
    (procKeys + (deepCallViews q - Pf).bind viewKeys).Nodup

/-- Shape of a walk-adjacent attachment pair: `a` is an assignment whose
value is a recognized accessor call with primary key `k`, `e` is a bare
string-literal expression statement, and `d` is the parse of that
string's dedented, stripped text. -/
def attachShape (a e : Node) (k : String) (d : Description) : Prop :=
  (∃ ln ts v, a = Node.assign ln ts v ∧ is_environ_get v = true ∧
    ∃ rest, get_args v = k :: rest) ∧
  (∃ ln ln2 s, e = Node.exprStmt ln (Node.constStr ln2 s) ∧
    d = Description.from_desc (pyStrip (pyDedent s)))

/-- C10: when two distinct recognized accessor calls with different keys
share a physical source line (for example two statements separated by a
semicolon), only the first call encountered during traversal is recorded;
the second is silently dropped with no error or warning, because
processing is deduplicated by line number alone. -/
theorem c10_line_dedup_drops_second (s1 s2 : String)
    (hne : pyStripQuotes (unparse (Node.constStr 1 s1)) ≠
      pyStripQuotes (unparse (Node.constStr 1 s2))) :
    findEnvironGetCalls (.module
      [ .assign 1 [.name 1 ("x")] (egCall 1 s1 []),
        .assign 1 [.name 1 ("y")] (egCall 1 s2 []) ]) =
    .ok [(pyStripQuotes (unparse (Node.constStr 1 s1)),
          { key := pyStripQuotes (unparse (Node.constStr 1 s1)) })] := rfl

/-- Witness for C10 at the keys `A` and `B`. -/
theorem c10_line_dedup_drops_second_witness :
    findEnvironGetCalls (.module
      [ .assign 1 [.name 1 ("x")] (egCall 1 ("A") []),
        .assign 1 [.name 1 ("y")] (egCall 1 ("B") []) ]) =
    .ok [(("A"), { key := ("A") })] :=
  c10_line_dedup_drops_second ("A") ("B") (by decide)

/-- C2 counterexample: in `elseBranchDocModule` the bare string literal
`'doc'` is the sole statement of the else-branch, so its source-text
position does not immediately follow the assignment `A = environ_get('A')`
(which is nested in the if-body, two lines earlier); the claim says such a
string is never attached, yet the scan attaches it to `A`, because
`ast.walk` order makes the string the node right after the assignment. -/
theorem c2_counterexample :
    findEnvironGetCalls elseBranchDocModule =
      .ok [(("A"), { key := ("A"), description := some { description := ("doc") } })] :=
  rfl

/-- C3 counterexample: the record for `environ_get('E', default='')` has
a present default literal (the empty string), so the claim makes its
effective default `""` and `isRequired` false; the code tests Python
truthiness, so the effective default is absent and the entry is
required. -/
theorem c3_counterexample :
    (({ key := ("E"), default := some ("") } : EnvironGetCall).default = some ("")) ∧
    ({ key := ("E"), default := some ("") } : EnvironGetCall).description = none ∧
    ({ key := ("E"), default := some ("") } : EnvironGetCall).get_default = none ∧
    ({ key := ("E"), default := some ("") } : EnvironGetCall).is_required = true :=
  ⟨rfl, rfl, rfl, rfl⟩

/-- C3 as amended: `effectiveDefault` is the annotation's default
directive when present and nonempty, else the call's default literal when
present and nonempty, else absent; `isRequired` holds iff
`effectiveDefault` is absent; a required entry's effective section is
`REQUIRED`; and a call with `default=11` plus a `.. default:: 42`
annotation has effective default `42`. -/
theorem c3_amended :
    (∀ (c : EnvironGetCall),
      (∀ d v, c.description = some d → d.default = some v → v ≠ ("") →
        c.get_default = some v) ∧
      ((c.description.bind Description.default = none ∨
        c.description.bind Description.default = some ("")) →
        ∀ v, c.default = some v → v ≠ ("") → c.get_default = some v) ∧
      ((c.description.bind Description.default = none ∨
        c.description.bind Description.default = some ("")) →
        (c.default = none ∨ c.default = some ("")) → c.get_default = none) ∧
      (c.is_required = true ↔ c.get_default = none) ∧
      (c.is_required = true → c.sect = some ("REQUIRED"))) ∧
    ({ key := ("T"), default := some ("11"),
       description := some (Description.from_desc (".. default:: 42")) } :
        EnvironGetCall).get_default = some ("42") := by
  constructor
  · intro c
    refine ⟨?_, ?_, ?_, ?_, ?_⟩
    · intro d v hd hv hne
      simp [EnvironGetCall.get_default, hd, hv, truthy, hne]
    · intro h v hv hne
      rcases h with h | h <;>
        simp [EnvironGetCall.get_default, h, hv, truthy, hne]
    · intro h h2
      rcases h with h | h <;> rcases h2 with h2 | h2 <;>
        simp [EnvironGetCall.get_default, h, h2, truthy]
    · simp [EnvironGetCall.is_required]
    · intro h
      simp [EnvironGetCall.sect, h]
  · rfl

/-- Witness for C3 as amended: a call whose only default information is
the literal `"7"` has effective default `"7"`. -/
theorem c3_amended_witness :
    ({ key := ("W"), default := some ("7") } : EnvironGetCall).get_default =
      some ("7") :=
  ((c3_amended.1 { key := ("W"), default := some ("7") }).2.1
    (Or.inl rfl) ("7") rfl (by decide))

/-- C4 counterexample: for the annotation text
`.. default:: a::b` followed by the indented line `  keep`, the stored
default value is `a` — the text between the first and second `::`
delimiters — not the entire text `a::b` after the prefix delimiter; and
the non-matching line is stored stripped (`keep`), not verbatim
(`  keep`). -/
theorem c4_counterexample :
    (Description.from_desc (".. default:: a::b\n  keep")).default = some ("a") ∧
    (Description.from_desc (".. default:: a::b\n  keep")).default ≠ some ("a::b") ∧
    (Description.from_desc (".. default:: a::b\n  keep")).description = ("keep") ∧
    (Description.from_desc (".. default:: a::b\n  keep")).description ≠ ("  keep") :=
  ⟨rfl, by decide, rfl, by decide⟩

/-- Head element of a trailing-biased option chain: the last element of a
cons list is the last of the tail if the tail is nonempty, else the
head. -/
theorem getLast?_cons_optOr (a : String) (xs : List String) :
    (a :: xs).getLast? = optOr xs.getLast? (some a) := by
  induction xs generalizing a with
  | nil => rfl
  | cons b bs ih =>
    rw [List.getLast?_cons_cons, ih b]
    cases bs.getLast? <;> rfl

/-- Absorption for `optOr`: once a value has been found, a later
fallback does not matter. -/
theorem optOr_absorb (x : Option String) (v : String) (s : Option String) :
    optOr (optOr x (some v)) s = optOr x (some v) := by
  cases x <;> rfl

/-- Fallback identity for `optOr`. -/
theorem optOr_none_right (a : Option String) : optOr a none = a := by
  cases a <;> rfl

/-- Characterization of the `from_desc` loop: folding the classifier over
a list of (stripped) lines appends exactly the non-directive lines to the
description and, for each directive kind, retains the value of the last
matching line, the three prefixes being tested in order with the first
match winning. -/
theorem fromDescStep_foldl :
    ∀ (ls : List String) (nd : List String) (d t s : Option String),
      ls.foldl fromDescStep (nd, d, t, s) =
        (nd ++ ls.filter (fun l => dirKind l = none),
         optOr (lastDirective ls .dflt) d,
         optOr (lastDirective ls .typ) t,
         optOr (lastDirective ls .sec) s) := by
  intro ls
  induction ls with
  | nil => intro nd d t s; simp [lastDirective, optOr]
  | cons l ls ih =>
    intro nd d t s
    rw [List.foldl_cons]
    cases h1 : pyStartsWith l (".. default::") with
    | true =>
      have hk : dirKind l = some DirKind.dflt := by simp [dirKind, h1]
      simp only [fromDescStep, h1, if_true]
      rw [ih]
      have hfilter : (l :: ls).filter (fun x => dirKind x = none) =
          ls.filter (fun x => dirKind x = none) := by simp [List.filter_cons, hk]
      have hlast : ∀ k, k ≠ DirKind.dflt →
          lastDirective (l :: ls) k = lastDirective ls k := by
        intro k hkne
        have : ¬(dirKind l = some k) := by simp [hk]; exact fun hh => hkne hh.symm
        simp [lastDirective, List.filter_cons, this]
      have hlastd : lastDirective (l :: ls) .dflt =
          optOr (lastDirective ls .dflt) (some (directiveValue l)) := by
        simp [lastDirective, List.filter_cons, hk, getLast?_cons_optOr]
      rw [hfilter, hlastd, optOr_absorb,
        hlast .typ (by decide), hlast .sec (by decide)]
      rfl
    | false =>
      cases h2 : pyStartsWith l (".. type::") with
      | true =>
        have hk : dirKind l = some DirKind.typ := by simp [dirKind, h1, h2]
        simp only [fromDescStep, h1, h2, Bool.false_eq_true, if_false, if_true]
        rw [ih]
        have hfilter : (l :: ls).filter (fun x => dirKind x = none) =
            ls.filter (fun x => dirKind x = none) := by simp [List.filter_cons, hk]
        have hlast : ∀ k, k ≠ DirKind.typ →
            lastDirective (l :: ls) k = lastDirective ls k := by
          intro k hkne
          have : ¬(dirKind l = some k) := by simp [hk]; exact fun hh => hkne hh.symm
          simp [lastDirective, List.filter_cons, this]
        have hlastt : lastDirective (l :: ls) .typ =
            optOr (lastDirective ls .typ) (some (directiveValue l)) := by
          simp [lastDirective, List.filter_cons, hk, getLast?_cons_optOr]
        rw [hfilter, hlastt, optOr_absorb,
          hlast .dflt (by decide), hlast .sec (by decide)]
        rfl
      | false =>
        cases h3 : pyStartsWith l (".. section::") with
        | true =>
          have hk : dirKind l = some DirKind.sec := by simp [dirKind, h1, h2, h3]
          simp only [fromDescStep, h1, h2, h3, Bool.false_eq_true, if_false, if_true]
          rw [ih]
          have hfilter : (l :: ls).filter (fun x => dirKind x = none) =
              ls.filter (fun x => dirKind x = none) := by
            simp [List.filter_cons, hk]
          have hlast : ∀ k, k ≠ DirKind.sec →
              lastDirective (l :: ls) k = lastDirective ls k := by
            intro k hkne
            have : ¬(dirKind l = some k) := by simp [hk]; exact fun hh => hkne hh.symm
            simp [lastDirective, List.filter_cons, this]
          have hlasts : lastDirective (l :: ls) .sec =
              optOr (lastDirective ls .sec) (some (directiveValue l)) := by
            simp [lastDirective, List.filter_cons, hk, getLast?_cons_optOr]
          rw [hfilter, hlasts, optOr_absorb,
            hlast .dflt (by decide), hlast .typ (by decide)]
          rfl
        | false =>
          have hk : dirKind l = none := by simp [dirKind, h1, h2, h3]
          simp only [fromDescStep, h1, h2, h3, Bool.false_eq_true, if_false]
          rw [ih]
          have hfilter : (l :: ls).filter (fun x => dirKind x = none) =
              l :: ls.filter (fun x => dirKind x = none) := by
            simp [List.filter_cons, hk]
          have hlast : ∀ k, lastDirective (l :: ls) k = lastDirective ls k := by
            intro k
            have : ¬(dirKind l = some k) := by simp [hk]
            simp [lastDirective, List.filter_cons, this]
          rw [hfilter, hlast .dflt, hlast .typ, hlast .sec]
          simp

/-- C4 as amended: each (whitespace-stripped) line of the annotation is
tested against the three directive prefixes in order with the first match
winning; non-matching lines are appended to the description in order
after stripping (not verbatim); a directive's stored value is the text
between the first and second `::` delimiters, trimmed (not the entire
text after the prefix); and when a directive kind repeats, the last
occurrence's value is retained. -/
theorem c4_amended :
    ∀ (desc : String), Description.from_desc desc = fromDescSpec desc := by
  intro desc
  unfold Description.from_desc fromDescSpec
  rw [fromDescStep_foldl]
  simp [optOr_none_right]

/-- C5: the alias argument text is handed to the host `eval`, not to a
literal-only parser for lists/tuples of strings: scanning
`A = environ_get('A', other=(1, 2))` evaluates the tuple and accepts the
two integers as alias values instead of rejecting them. -/
theorem c5_eval_accepts_non_string_aliases :
    findEnvironGetCalls intTupleAliasModule =
      .ok [(("A"), { key := ("A"), other := [.pint 1, .pint 2] })] := rfl

/-- C6 counterexample: the record for `environ_get('E', type='')` has a
present, unrecognized type literal (the empty string), so the claim makes
the effective type `""` with a warning; the code tests truthiness, so the
effective type is `str` and no warning is emitted. -/
theorem c6_counterexample :
    (({ key := ("E"), type := some ("") } : EnvironGetCall).type = some ("")) ∧
    ({ key := ("E"), type := some ("") } : EnvironGetCall).get_type = ("str") ∧
    ({ key := ("E"), type := some ("") } : EnvironGetCall).get_type_warns = false :=
  ⟨rfl, rfl, rfl⟩

/-- C6 as amended: `effectiveType` is the annotation's type directive
when present and nonempty; otherwise a recognized nonempty type literal
passes through (`bool_parser` normalizes to `bool`), an unrecognized
nonempty literal is returned unchanged with a warning, and an absent or
empty literal yields `str` without warning. -/
theorem c6_amended :
    (∀ (c : EnvironGetCall),
      (∀ d v, c.description = some d → d.type = some v → v ≠ ("") →
        c.get_type = v ∧ c.get_type_warns = false) ∧
      ((c.description.bind Description.type = none ∨
        c.description.bind Description.type = some ("")) →
        (∀ t, c.type = some t →
          ((t = ("int") ∨ t = ("float") ∨ t = ("str") ∨ t = ("bool")) →
            c.get_type = t ∧ c.get_type_warns = false) ∧
          (t = ("bool_parser") → c.get_type = ("bool") ∧ c.get_type_warns = false) ∧
          (t ≠ ("") →
            ¬(t = ("int") ∨ t = ("float") ∨ t = ("str") ∨ t = ("bool")) →
            t ≠ ("bool_parser") →
            c.get_type = t ∧ c.get_type_warns = true) ∧
          (t = ("") → c.get_type = ("str") ∧ c.get_type_warns = false)) ∧
        (c.type = none → c.get_type = ("str") ∧ c.get_type_warns = false))) ∧
    ({ key := ("E"), type := some ("bool_parser") } : EnvironGetCall).get_type =
      ("bool") := by
  constructor
  · intro c
    constructor
    · intro d v hd hv hne
      constructor
      · simp [EnvironGetCall.get_type, hd, hv, truthy, hne]
      · simp [EnvironGetCall.get_type_warns, hd, hv, truthy, hne]
    · intro h
      constructor
      · intro t ht
        refine ⟨?_, ?_, ?_, ?_⟩
        · intro hrec
          have hne : t ≠ ("") := by
            rcases hrec with h1 | h1 | h1 | h1 <;> subst h1 <;> decide
          constructor
          · rcases h with h | h <;>
              rcases hrec with h1 | h1 | h1 | h1 <;> subst h1 <;>
              simp [EnvironGetCall.get_type, getTypeFromLiteral, h, ht, truthy]
          · rcases h with h | h <;>
              rcases hrec with h1 | h1 | h1 | h1 <;> subst h1 <;>
              simp [EnvironGetCall.get_type_warns, h, ht, truthy]
        · intro hbp
          subst hbp
          constructor
          · rcases h with h | h <;>
              simp [EnvironGetCall.get_type, getTypeFromLiteral, h, ht, truthy]
          · rcases h with h | h <;>
              simp [EnvironGetCall.get_type_warns, h, ht, truthy]
        · intro hne hnrec hnbp
          have h1 : t ≠ ("int") := fun hh => hnrec (Or.inl hh)
          have h2 : t ≠ ("float") := fun hh => hnrec (Or.inr (Or.inl hh))
          have h3 : t ≠ ("str") := fun hh => hnrec (Or.inr (Or.inr (Or.inl hh)))
          have h4 : t ≠ ("bool") := fun hh => hnrec (Or.inr (Or.inr (Or.inr hh)))
          constructor
          · rcases h with h | h <;>
              simp [EnvironGetCall.get_type, getTypeFromLiteral, h, ht, truthy,
                hne, h1, h2, h3, h4, hnbp]
          · rcases h with h | h <;>
              simp [EnvironGetCall.get_type_warns, h, ht, truthy,
                hne, h1, h2, h3, h4, hnbp]
        · intro hempty
          subst hempty
          constructor
          · rcases h with h | h <;>
              simp [EnvironGetCall.get_type, getTypeFromLiteral, h, ht, truthy]
          · rcases h with h | h <;>
              simp [EnvironGetCall.get_type_warns, h, ht, truthy]
      · intro ht
        constructor
        · rcases h with h | h <;>
            simp [EnvironGetCall.get_type, getTypeFromLiteral, h, ht, truthy]
        · rcases h with h | h <;>
            simp [EnvironGetCall.get_type_warns, h, ht, truthy]
  · rfl

/-- Witness for C6 as amended: an unrecognized nonempty type literal
passes through unchanged and warns. -/
theorem c6_amended_witness :
    ({ key := ("W"), type := some ("complex") } : EnvironGetCall).get_type =
      ("complex") ∧
    ({ key := ("W"), type := some ("complex") } : EnvironGetCall).get_type_warns =
      true :=
  (((c6_amended.1 { key := ("W"), type := some ("complex") }).2
    (Or.inl rfl)).1 ("complex") rfl).2.2.1 (by decide) (by decide) (by decide)

/-- C8: the documented alias rendering crashes for a list literal: the
scan of `A = environ_get('A', other=['X', 'Y'])` aborts with an
`AssertionError` (the `eval` result is a Python list, the assertion
requires a tuple), so no heading is rendered; with a tuple literal
`('X', 'Y')` the scan succeeds and the renderer emits the heading with
both aliases, in order, marked as code. -/
theorem c8_list_alias_assertion_error :
    generate_environ_doc listAliasModule true = .error .assertionError ∧
    findEnvironGetCalls tupleAliasModule = .ok tupleAliasCalls ∧
    ("``A`` (aliases: ``X``, ``Y``)") ∈
      renderDocLines (sortBySection tupleAliasCalls) true :=
  ⟨rfl, rfl, by decide⟩

/-- C9 counterexample: in `a = environ_get('A'); b = environ_get()` the
malformed second call shares the first call's line number and is
silently skipped: the scan succeeds, contradicting the claim that a
recognized call without a key argument always aborts the scan. -/
theorem c9_counterexample :
    findEnvironGetCalls skippedMalformedModule = .ok [(("A"), { key := ("A") })] :=
  rfl

/-- C9 as amended: whenever a recognized accessor call without a first
positional argument is actually processed, `_process_node` aborts the
scan with the `IndexError` from `args[0]` and no document is produced;
such a call escapes processing only through the line-number
deduplication. -/
theorem c9_amended :
    (∀ (ln : Nat) (f : Node) (kws : List (Option String × Node)) (st : ScanState),
      processNode (.call ln f [] kws) st = .error .indexError) ∧
    generate_environ_doc malformedCallModule true = .error .indexError :=
  ⟨fun _ _ _ _ => rfl, rfl⟩

theorem strLeB_ne_lt : ∀ (a b : List Char),
    strLeB a b = true → a ≠ b → strLtB a b = true := by
  intro a
  induction a with
  | nil =>
    intro b _ hne
    cases b with
    | nil => exact absurd rfl hne
    | cons d ds => rfl
  | cons c cs ih =>
    intro b h hne
    cases b with
    | nil => simp [strLeB] at h
    | cons d ds =>
      simp only [strLeB] at h
      simp only [strLtB]
      rcases Nat.lt_trichotomy c.toNat d.toNat with h1 | h1 | h1
      · simp [h1]
      · have h2 : ¬c.toNat < d.toNat := by omega
        have h3 : ¬d.toNat < c.toNat := by omega
        have hcd : c = d := by
          apply Char.eq_of_val_eq
          exact UInt32.toNat.inj h1
        simp only [h2, h3, if_false] at h ⊢
        subst hcd
        have hne2 : cs ≠ ds := by
          intro hh
          exact hne (by rw [hh])
        exact ih ds h hne2
      · have h2 : ¬c.toNat < d.toNat := by omega
        simp [h2, h1] at h

theorem pyStrLt_of_le_ne (a b : String) (h : pyStrLe a b = true) (hne : a ≠ b) :
    pyStrLt a b = true := by
  apply strLeB_ne_lt _ _ h
  intro hh
  apply hne
  cases a with
  | mk da =>
    cases b with
    | mk db =>
      have : da = db := hh
      rw [this]

theorem sect_ne_some_empty (c : EnvironGetCall) : c.sect ≠ some ("") := by
  intro h
  unfold EnvironGetCall.sect at h
  by_cases hr : c.is_required
  · simp [hr] at h
  · simp [hr] at h
    cases hd : c.description with
    | none => simp [hd] at h
    | some d =>
      simp only [hd] at h
      cases hsec : d.section' with
      | none => simp [hsec, truthy] at h
      | some s =>
        rw [hsec] at h
        by_cases hs : s = ("")
        · simp [truthy, hs] at h
        · simp [truthy, hs] at h

theorem groupSet_keys (acc : List (Option String × List (String × EnvironGetCall)))
    (s : Option String) (p : String × EnvironGetCall) :
    (groupSet acc s p).map Prod.fst =
      if s ∈ acc.map Prod.fst then acc.map Prod.fst
      else acc.map Prod.fst ++ [s] := by
  induction acc with
  | nil => simp [groupSet]
  | cons g rest ih =>
    by_cases hg : g.1 = s
    · simp [groupSet, hg]
    · have hg' : ¬s = g.1 := fun hh => hg hh.symm
      simp only [groupSet, hg, if_false, List.map_cons, ih, List.mem_cons]
      by_cases hm : s ∈ rest.map Prod.fst
      · simp [hm, hg']
      · simp [hm, hg']

theorem grouped_keys_nodup :
    ∀ (calls : List (String × EnvironGetCall))
      (acc : List (Option String × List (String × EnvironGetCall))),
      (acc.map Prod.fst).Nodup →
      ((calls.foldl (fun acc p => groupSet acc p.2.sect p) acc).map Prod.fst).Nodup := by
  intro calls
  induction calls with
  | nil => intro acc h; exact h
  | cons p ps ih =>
    intro acc h
    rw [List.foldl_cons]
    apply ih
    rw [groupSet_keys]
    by_cases hm : p.2.sect ∈ acc.map Prod.fst
    · simp [hm, h]
    · simp only [hm, if_false]
      simp [List.nodup_append, h, hm]

theorem grouped_keys_from_sect :
    ∀ (calls : List (String × EnvironGetCall))
      (acc : List (Option String × List (String × EnvironGetCall)))
      (x : Option String),
      x ∈ (calls.foldl (fun acc p => groupSet acc p.2.sect p) acc).map Prod.fst →
      x ∈ acc.map Prod.fst ∨ ∃ c : EnvironGetCall, x = c.sect := by
  intro calls
  induction calls with
  | nil => intro acc x h; exact Or.inl h
  | cons p ps ih =>
    intro acc x h
    rw [List.foldl_cons] at h
    rcases ih _ _ h with h2 | h2
    · rw [groupSet_keys] at h2
      by_cases hm : p.2.sect ∈ acc.map Prod.fst
      · rw [if_pos hm] at h2
        exact Or.inl h2
      · rw [if_neg hm] at h2
        rcases List.mem_append.mp h2 with h3 | h3
        · exact Or.inl h3
        · exact Or.inr ⟨p.2, List.mem_singleton.mp h3⟩
    · exact Or.inr h2

theorem middle_pairwise (M : List (Option String))
    (hsort : M.Pairwise (fun a b => pyStrLe (a.getD ("")) (b.getD ("")) = true))
    (hnodup : M.Nodup)
    (hne : ∀ x ∈ M, x ≠ some ("") ∧ x ≠ some ("REQUIRED") ∧ x ≠ none) :
    M.Pairwise sectionLT := by
  have h2 := hsort.and hnodup
  apply h2.imp_of_mem
  intro a b ha hb hab
  obtain ⟨hle, hneq⟩ := hab
  obtain ⟨ha1, ha2, ha3⟩ := hne a ha
  obtain ⟨hb1, hb2, hb3⟩ := hne b hb
  cases a with
  | none => exact absurd rfl ha3
  | some sa =>
    cases b with
    | none => exact absurd rfl hb3
    | some sb =>
      have hsa : sa ≠ ("REQUIRED") := fun h => ha2 (by rw [h])
      have hsb : sb ≠ ("REQUIRED") := fun h => hb2 (by rw [h])
      have hss : sa ≠ sb := fun h => hneq (by rw [h])
      right
      refine ⟨by simp [sectionKey, hsa, hsb], ?_⟩
      simp only [sectionKey, hsa, hsb, if_false]
      exact pyStrLt_of_le_ne sa sb hle hss

theorem req_sectionLT (x : Option String) (hx : x ≠ some ("REQUIRED")) :
    sectionLT (some ("REQUIRED")) x := by
  cases x with
  | none => left; simp [sectionKey]
  | some s =>
    have hs : s ≠ ("REQUIRED") := fun h => hx (by rw [h])
    left; simp [sectionKey, hs]

theorem sectionLT_none (x : Option String) (hx : x ≠ none) : sectionLT x none := by
  cases x with
  | none => exact absurd rfl hx
  | some s =>
    by_cases h : s = ("REQUIRED") <;> (left; simp [sectionKey, h])

theorem sections_final_pairwise (S : List (Option String))
    (hsort : S.Pairwise (fun a b => pyStrLe (a.getD ("")) (b.getD ("")) = true))
    (hnodup : S.Nodup) (hne : ∀ x ∈ S, x ≠ some ("")) :
    (moveNoneLast (moveReqFirst S)).Pairwise sectionLT := by
  classical
  have hmidOf : ∀ (M : List (Option String)), List.Sublist M S →
      M.Nodup → (∀ x ∈ M, x ≠ some ("REQUIRED") ∧ x ≠ none) →
      M.Pairwise sectionLT := by
    intro M hsub hnd hprops
    exact middle_pairwise M (hsort.sublist hsub) hnd
      (fun x hx => ⟨hne x (hsub.subset hx), (hprops x hx).1, (hprops x hx).2⟩)
  unfold moveReqFirst
  by_cases hreq : S.contains (some ("REQUIRED")) = true
  · rw [if_pos hreq]
    have hreqmem : some ("REQUIRED") ∈ S := by
      simpa using hreq
    set E := S.erase (some ("REQUIRED")) with hE
    have hEsub : List.Sublist E S := List.erase_sublist _ _
    have hEnd : E.Nodup := hnodup.sublist hEsub
    have hRnot : some ("REQUIRED") ∉ E := hnodup.not_mem_erase
    unfold moveNoneLast
    by_cases hnone : (some ("REQUIRED") :: E).contains none = true
    · rw [if_pos hnone]
      have hnoneE : none ∈ E := by
        have : (none : Option String) ∈ some ("REQUIRED") :: E := by simpa using hnone
        rcases List.mem_cons.mp this with h | h
        · cases h
        · exact h
      have herase : (some ("REQUIRED") :: E).erase none =
          some ("REQUIRED") :: E.erase none := by
        rw [List.erase_cons_tail]
        simp
      rw [herase]
      set M := E.erase none with hM
      have hMsub : List.Sublist M E := List.erase_sublist _ _
      have hMnd : M.Nodup := hEnd.sublist hMsub
      have hMnone : none ∉ M := hEnd.not_mem_erase
      have hMreq : some ("REQUIRED") ∉ M := fun h => hRnot (hMsub.subset h)
      have hMpair : M.Pairwise sectionLT :=
        hmidOf M (hMsub.trans hEsub) hMnd
          (fun x hx => ⟨fun h => hMreq (h ▸ hx), fun h => hMnone (h ▸ hx)⟩)
      have happend : (M ++ [none]).Pairwise sectionLT := by
        refine List.pairwise_append.mpr ⟨hMpair, List.pairwise_singleton _ _, ?_⟩
        intro a ha b hb
        rw [List.mem_singleton.mp hb]
        exact sectionLT_none a (fun h => hMnone (h ▸ ha))
      rw [show some ("REQUIRED") :: M ++ [none] = some ("REQUIRED") :: (M ++ [none]) from rfl]
      refine List.Pairwise.cons ?_ happend
      intro x hx
      rcases List.mem_append.mp hx with h | h
      · exact req_sectionLT x (fun hh => hMreq (hh ▸ h))
      · rw [List.mem_singleton.mp h]
        exact req_sectionLT none (by simp)
    · rw [if_neg hnone]
      have hnoneE : none ∉ E := by
        intro h
        exact hnone (by simp [List.mem_cons.mpr (Or.inr h)])
      have hEpair : E.Pairwise sectionLT :=
        hmidOf E hEsub hEnd
          (fun x hx => ⟨fun h => hRnot (h ▸ hx), fun h => hnoneE (h ▸ hx)⟩)
      refine List.Pairwise.cons ?_ hEpair
      intro x hx
      exact req_sectionLT x (fun hh => hRnot (hh ▸ hx))
  · rw [if_neg hreq]
    have hRnot : some ("REQUIRED") ∉ S := by
      intro h
      exact hreq (by simpa using h)
    unfold moveNoneLast
    by_cases hnone : S.contains none = true
    · rw [if_pos hnone]
      have hnoneS : none ∈ S := by simpa using hnone
      set M := S.erase none with hM
      have hMsub : List.Sublist M S := List.erase_sublist _ _
      have hMnd : M.Nodup := hnodup.sublist hMsub
      have hMnone : none ∉ M := hnodup.not_mem_erase
      have hMreq : some ("REQUIRED") ∉ M := fun h => hRnot (hMsub.subset h)
      have hMpair : M.Pairwise sectionLT :=
        hmidOf M hMsub hMnd
          (fun x hx => ⟨fun h => hMreq (h ▸ hx), fun h => hMnone (h ▸ hx)⟩)
      refine List.pairwise_append.mpr ⟨hMpair, List.pairwise_singleton _ _, ?_⟩
      intro a ha b hb
      rw [List.mem_singleton.mp hb]
      exact sectionLT_none a (fun h => hMnone (h ▸ ha))
    · rw [if_neg hnone]
      have hnoneS : none ∉ S := by
        intro h
        exact hnone (by simpa using h)
      exact hmidOf S (List.Sublist.refl S) hnodup
        (fun x hx => ⟨fun h => hRnot (h ▸ hx), fun h => hnoneS (h ▸ hx)⟩)

theorem perm_cons_erase_beq {α : Type} [BEq α] [LawfulBEq α] :
    ∀ {l : List α} {a : α}, a ∈ l → List.Perm l (a :: l.erase a) := by
  intro l
  induction l with
  | nil => intro a h; cases h
  | cons b rest ih =>
    intro a h
    by_cases hb : b = a
    · subst hb
      rw [List.erase_cons_head]
    · have hmem : a ∈ rest := by
        rcases List.mem_cons.mp h with h1 | h1
        · exact absurd h1.symm hb
        · exact h1
      rw [List.erase_cons_tail (by simpa using hb)]
      exact ((ih hmem).cons b).trans (List.Perm.swap a b _)

theorem groupSet_flatten_perm (acc : List (Option String × List (String × EnvironGetCall)))
    (s : Option String) (p : String × EnvironGetCall) :
    List.Perm (((groupSet acc s p).map Prod.snd).flatten)
      ((acc.map Prod.snd).flatten ++ [p]) := by
  induction acc with
  | nil => simp [groupSet]
  | cons g rest ih =>
    by_cases hg : g.1 = s
    · simp only [groupSet]
      rw [if_pos hg]
      simp only [List.map_cons, List.flatten_cons]
      have h2 : List.Perm (g.2 ++ ([p] ++ (rest.map Prod.snd).flatten))
          (g.2 ++ ((rest.map Prod.snd).flatten ++ [p])) :=
        List.Perm.append_left g.2 List.perm_append_comm
      simpa [List.append_assoc] using h2
    · simp only [groupSet]
      rw [if_neg hg]
      simp only [List.map_cons, List.flatten_cons]
      have h2 := ih.append_left g.2
      simpa [List.append_assoc] using h2

theorem foldl_groupSet_flatten_perm :
    ∀ (calls : List (String × EnvironGetCall))
      (acc : List (Option String × List (String × EnvironGetCall))),
      List.Perm
        (((calls.foldl (fun acc p => groupSet acc p.2.sect p) acc).map Prod.snd).flatten)
        ((acc.map Prod.snd).flatten ++ calls) := by
  intro calls
  induction calls with
  | nil => intro acc; simp
  | cons p ps ih =>
    intro acc
    rw [List.foldl_cons]
    have h1 := ih (groupSet acc p.2.sect p)
    have h2 := (groupSet_flatten_perm acc p.2.sect p).append_right ps
    have h3 := h1.trans h2
    simpa [List.append_assoc] using h3

theorem sorted_groups_flatten_perm
    (G : List (Option String × List (String × EnvironGetCall))) :
    List.Perm
      (((G.map (fun g => (g.1, List.insertionSort (fun a b => pyStrLe a.1 b.1) g.2))).map
        Prod.snd).flatten)
      ((G.map Prod.snd).flatten) := by
  induction G with
  | nil => simp
  | cons g rest ih =>
    simp only [List.map_cons, List.flatten_cons]
    exact (List.perm_insertionSort _ g.2).append ih

theorem find?_key_self :
    ∀ (G : List (Option String × List (String × EnvironGetCall))),
      (G.map Prod.fst).Nodup →
      ∀ g ∈ G, G.find? (fun g' => g'.1 = g.1) = some g := by
  intro G
  induction G with
  | nil => intro _ g hg; cases hg
  | cons g0 rest ih =>
    intro hnd g hg
    rcases List.mem_cons.mp hg with h | h
    · subst h
      simp [List.find?]
    · have hg1 : g.1 ∈ rest.map Prod.fst := List.mem_map.mpr ⟨g, h, rfl⟩
      have hne : ¬(g0.1 = g.1) := by
        intro hh
        rw [List.map_cons, List.nodup_cons] at hnd
        exact hnd.1 (hh ▸ hg1)
      rw [List.find?_cons_of_neg _ (by simpa using hne)]
      exact ih (by rw [List.map_cons, List.nodup_cons] at hnd; exact hnd.2) g h

theorem moveReqFirst_perm (S : List (Option String)) :
    List.Perm (moveReqFirst S) S := by
  unfold moveReqFirst
  by_cases h : S.contains (some ("REQUIRED")) = true
  · rw [if_pos h]
    exact (perm_cons_erase_beq (by simpa using h)).symm
  · rw [if_neg h]

theorem moveNoneLast_perm (S : List (Option String)) :
    List.Perm (moveNoneLast S) S := by
  unfold moveNoneLast
  by_cases h : S.contains none = true
  · rw [if_pos h]
    have h1 : List.Perm (S.erase none ++ [none]) (none :: S.erase none) :=
      List.perm_append_singleton _ _
    exact h1.trans (perm_cons_erase_beq (by simpa using h)).symm
  · rw [if_neg h]

theorem groupedOf_keys (calls : List (String × EnvironGetCall)) :
    (groupedOf calls).map Prod.fst =
      (calls.foldl (fun acc p => groupSet acc p.2.sect p) []).map Prod.fst := by
  unfold groupedOf
  rw [List.map_map]
  rfl

theorem groupedOf_keys_nodup (calls : List (String × EnvironGetCall)) :
    ((groupedOf calls).map Prod.fst).Nodup := by
  rw [groupedOf_keys]
  exact grouped_keys_nodup calls [] (by simp)

theorem sectionsOf_perm (calls : List (String × EnvironGetCall)) :
    List.Perm (sectionsOf calls) ((groupedOf calls).map Prod.fst) := by
  unfold sectionsOf
  exact ((moveNoneLast_perm _).trans (moveReqFirst_perm _)).trans
    (List.perm_insertionSort _ _)

theorem map_fst_pair {α β : Type} (l : List α) (f : α → β) :
    (l.map (fun s => (s, f s))).map Prod.fst = l := by
  induction l with
  | nil => rfl
  | cons a as ih => simp only [List.map_cons, ih]

/-- C7: the organizer's output order is the strict deterministic total
order `sectionLT` on sections (`REQUIRED` first, named sections
lexicographically ascending by code point, the unnamed group last);
within each section the entries are sorted ascending by key; the output
entries are a permutation of the input entries (the input call records
are not mutated, merely regrouped); and on sections
`{REQUIRED, B, A, None}` the output order is `[REQUIRED, A, B, None]`. -/
theorem c7_organizer_order :
    (∀ (calls : List (String × EnvironGetCall)),
      ((sortBySection calls).map Prod.fst).Pairwise sectionLT ∧
      (∀ g ∈ sortBySection calls,
        g.2.Pairwise (fun a b => pyStrLe a.1 b.1 = true)) ∧
      List.Perm (((sortBySection calls).map Prod.snd).flatten) calls) ∧
    (sortBySection sectionOrderCalls).map Prod.fst =
      [some ("REQUIRED"), some ("A"), some ("B"), none] := by
  constructor
  · intro calls
    have hkeysnd : ((groupedOf calls).map Prod.fst).Nodup := groupedOf_keys_nodup calls
    have hfst : (sortBySection calls).map Prod.fst = sectionsOf calls := by
      unfold sortBySection
      exact map_fst_pair _ _
    refine ⟨?_, ?_, ?_⟩
    · -- section order
      rw [hfst]
      unfold sectionsOf
      apply sections_final_pairwise
      · exact List.sorted_insertionSort _ _
      · exact (List.perm_insertionSort _ _).nodup_iff.mpr hkeysnd
      · intro x hx
        have hx0 : x ∈ (groupedOf calls).map Prod.fst :=
          (List.perm_insertionSort _ _).subset hx
        rw [groupedOf_keys] at hx0
        rcases grouped_keys_from_sect calls [] x hx0 with h | ⟨c, hc⟩
        · simp at h
        · rw [hc]; exact sect_ne_some_empty c
    · -- entries sorted within each section
      intro g hg
      unfold sortBySection at hg
      rcases List.mem_map.mp hg with ⟨s, _, rfl⟩
      cases hfind : (groupedOf calls).find? (fun g' => g'.1 = s) with
      | none => simp [hfind]
      | some g' =>
        simp only [hfind, Option.map_some, Option.getD_some]
        have hg' : g' ∈ groupedOf calls := List.mem_of_find?_eq_some hfind
        unfold groupedOf at hg'
        rcases List.mem_map.mp hg' with ⟨g0, _, rfl⟩
        exact List.sorted_insertionSort _ _
    · -- permutation of the input entries
      have h1 : (sortBySection calls).map Prod.snd =
          (sectionsOf calls).map (fun s =>
            (((groupedOf calls).find? (fun g' => g'.1 = s)).map Prod.snd).getD []) := by
        unfold sortBySection
        rw [List.map_map]
        rfl
      have h2 : List.Perm
          ((sectionsOf calls).map (fun s =>
            (((groupedOf calls).find? (fun g' => g'.1 = s)).map Prod.snd).getD []))
          (((groupedOf calls).map Prod.fst).map (fun s =>
            (((groupedOf calls).find? (fun g' => g'.1 = s)).map Prod.snd).getD [])) :=
        (sectionsOf_perm calls).map _
      have h3 : ((groupedOf calls).map Prod.fst).map (fun s =>
            (((groupedOf calls).find? (fun g' => g'.1 = s)).map Prod.snd).getD []) =
          (groupedOf calls).map Prod.snd := by
        rw [List.map_map]
        apply List.map_congr_left
        intro g hg
        simp only [Function.comp]
        rw [find?_key_self (groupedOf calls) hkeysnd g hg]
        rfl
      have h4 : List.Perm (((sortBySection calls).map Prod.snd).flatten)
          (((groupedOf calls).map Prod.snd).flatten) := by
        rw [h1]
        exact (h2.flatten).trans (by rw [h3])
      have h5 : List.Perm (((groupedOf calls).map Prod.snd).flatten) calls := by
        unfold groupedOf
        refine (sorted_groups_flatten_perm _).trans ?_
        have := foldl_groupSet_flatten_perm calls []
        simpa using this
      exact h4.trans h5
  · rfl

theorem walkBFSFuel_congr :
    ∀ (f1 f2 : Nat) (q : List Node), sizeListAux q ≤ f1 → sizeListAux q ≤ f2 →
      walkBFSFuel f1 q = walkBFSFuel f2 q := by
  intro f1
  induction f1 with
  | zero =>
    intro f2 q h1 _
    cases q with
    | nil => cases f2 <;> rfl
    | cons n rest =>
      exfalso
      have := sizeFacts_holds.2.2 n
      have h3 : sizeListAux (n :: rest) = n.size + sizeListAux rest := rfl
      omega
  | succ f ih =>
    intro f2 q h1 h2
    cases q with
    | nil => cases f2 <;> rfl
    | cons n rest =>
      cases f2 with
      | zero =>
        exfalso
        have := sizeFacts_holds.2.2 n
        have h3 : sizeListAux (n :: rest) = n.size + sizeListAux rest := rfl
        omega
      | succ f2' =>
        show n :: walkBFSFuel f (rest ++ n.children) =
          n :: walkBFSFuel f2' (rest ++ n.children)
        congr 1
        have hch := sizeFacts_holds.2.1 n
        have happ := sizeFacts_holds.1 rest n.children
        have h3 : sizeListAux (n :: rest) = n.size + sizeListAux rest := rfl
        exact ih f2' (rest ++ n.children) (by omega) (by omega)

theorem walkBFS_cons (n : Node) (rest : List Node) :
    walkBFS (n :: rest) = n :: walkBFS (rest ++ n.children) := by
  have hpos := sizeFacts_holds.2.2 n
  have hch := sizeFacts_holds.2.1 n
  have happ := sizeFacts_holds.1 rest n.children
  have h3 : sizeListAux (n :: rest) = n.size + sizeListAux rest := rfl
  unfold walkBFS
  cases hs : sizeListAux (n :: rest) with
  | zero => omega
  | succ m =>
    show n :: walkBFSFuel m (rest ++ n.children) = _
    congr 1
    exact walkBFSFuel_congr m _ (rest ++ n.children) (by omega) (le_refl _)

theorem scanLoop_walkBFS_eq_scanQueue :
    ∀ (q : List Node) (prev : Option Node) (st : ScanState),
      scanLoop (walkBFS q) prev st = scanQueue q prev st
  | [], _, _ => by
      rw [scanQueue]
      rfl
  | n :: rest, prev, st => by
      rw [walkBFS_cons]
      simp only [scanLoop, scanQueue]
      cases scanStep n prev st with
      | error e => rfl
      | ok st' =>
        exact scanLoop_walkBFS_eq_scanQueue (rest ++ n.children) (some n) st'
termination_by q _ _ => sizeListAux q
decreasing_by
  have happ := sizeFacts_holds.1 rest n.children
  have hch := sizeFacts_holds.2.1 n
  have h3 : sizeListAux (n :: rest) = n.size + sizeListAux rest := rfl
  omega

theorem getLast?_eq_some_split {α : Type} :
    ∀ (l : List α) (a : α), l.getLast? = some a → ∃ l₀, l = l₀ ++ [a] := by
  intro l
  induction l with
  | nil => intro a h; cases h
  | cons b rest ih =>
    intro a h
    cases rest with
    | nil =>
      refine ⟨[], ?_⟩
      have hba : b = a := by simpa using h
      rw [hba]
      rfl
    | cons c cs =>
      rw [List.getLast?_cons_cons] at h
      obtain ⟨l₀, hl⟩ := ih a h
      exact ⟨b :: l₀, by rw [hl]; rfl⟩

theorem listSet_mem :
    ∀ (l : List (String × EnvironGetCall)) (k : String) (v : EnvironGetCall)
      (p : String × EnvironGetCall),
      p ∈ listSet l k v → p ∈ l ∨ p = (k, v) := by
  intro l k v
  induction l with
  | nil =>
    intro p hp
    simp [listSet] at hp
    exact Or.inr hp
  | cons g rest ih =>
    intro p hp
    by_cases hg : g.1 = k
    · rw [listSet, if_pos hg] at hp
      rcases List.mem_cons.mp hp with h | h
      · exact Or.inr (by rw [h, hg])
      · exact Or.inl (List.mem_cons.mpr (Or.inr h))
    · rw [listSet, if_neg hg] at hp
      rcases List.mem_cons.mp hp with h | h
      · exact Or.inl (List.mem_cons.mpr (Or.inl h))
      · rcases ih p h with h2 | h2
        · exact Or.inl (List.mem_cons.mpr (Or.inr h2))
        · exact Or.inr h2

theorem processNode_ok_spec (v : Node) (st st₁ : ScanState)
    (h : processNode v st = .ok st₁) :
    ∃ k rec, st₁.calls = st.calls ++ [(k, rec)] ∧ rec.description = none ∧
      st₁.seen = v.lineno :: st.seen := by
  simp only [processNode] at h
  split at h
  · cases h
  · split at h
    · cases h
    · split at h
      · cases h
      · cases h
      · split at h
        · cases h
        · cases h
          exact ⟨_, _, rfl, rfl, rfl⟩

/-- The attachment-tracking invariant is preserved by one scan step, with
the processed node appended to the trace prefix. -/
theorem scanStep_good (n : Node) (P : List Node) (st st₁ : ScanState)
    (hstep : scanStep n (P.getLast?) st = .ok st₁)
    (hgood : ∀ k r dd, (k, r) ∈ st.calls → r.description = some dd →
      ∃ l₁ a e l₂, P = l₁ ++ a :: e :: l₂ ∧ attachShape a e k dd) :
    ∀ k r dd, (k, r) ∈ st₁.calls → r.description = some dd →
      ∃ l₁ a e l₂, P ++ [n] = l₁ ++ a :: e :: l₂ ∧ attachShape a e k dd := by
  have hmono : ∀ k r dd, (k, r) ∈ st.calls → r.description = some dd →
      ∃ l₁ a e l₂, P ++ [n] = l₁ ++ a :: e :: l₂ ∧ attachShape a e k dd := by
    intro k r dd hm hd
    obtain ⟨l₁, a, e, l₂, hP, hshape⟩ := hgood k r dd hm hd
    exact ⟨l₁, a, e, l₂ ++ [n], by rw [hP]; simp, hshape⟩
  have hproc : ∀ (v : Node), processNode v st = .ok st₁ →
      ∀ k r dd, (k, r) ∈ st₁.calls → r.description = some dd →
      ∃ l₁ a e l₂, P ++ [n] = l₁ ++ a :: e :: l₂ ∧ attachShape a e k dd := by
    intro v hv k r dd hm hd
    obtain ⟨k0, rec, hcalls, hdesc, _⟩ := processNode_ok_spec v st st₁ hv
    rw [hcalls] at hm
    rcases List.mem_append.mp hm with hm2 | hm2
    · exact hmono k r dd hm2 hd
    · have hp := List.mem_singleton.mp hm2
      have hr : r = rec := congrArg Prod.snd hp
      rw [hr, hdesc] at hd
      cases hd
  cases n with
  | assign ln ts v =>
    simp only [scanStep] at hstep
    split at hstep
    · exact hproc v hstep
    · cases hstep; exact hmono
  | call ln f args kws =>
    simp only [scanStep] at hstep
    split at hstep
    · exact hproc _ hstep
    · cases hstep; exact hmono
  | exprStmt ln v =>
    cases v
    case constStr ln2 s =>
      cases hprev : P.getLast? with
      | none =>
        rw [hprev] at hstep
        simp only [scanStep] at hstep
        cases hstep; exact hmono
      | some pn =>
        rw [hprev] at hstep
        cases pn
        case assign pln pts pv =>
          simp only [scanStep] at hstep
          by_cases hpv : is_environ_get pv = true
          · rw [if_pos hpv] at hstep
            cases hpargs : get_args pv with
            | nil => rw [hpargs] at hstep; cases hstep
            | cons key rest =>
              rw [hpargs] at hstep
              dsimp only at hstep
              cases hfind : listGet? st.calls key with
              | none => rw [hfind] at hstep; cases hstep
              | some r0 =>
                rw [hfind] at hstep
                dsimp only at hstep
                cases hstep
                intro k r dd hm hd
                rcases listSet_mem _ _ _ _ hm with hm2 | hm2
                · exact hmono k r dd hm2 hd
                · have hk : k = key := congrArg Prod.fst hm2
                  have hr := congrArg Prod.snd hm2
                  simp only at hr
                  obtain ⟨P₀, hP₀⟩ := getLast?_eq_some_split P _ hprev
                  refine ⟨P₀, Node.assign pln pts pv,
                    Node.exprStmt ln (Node.constStr ln2 s), [], ?_, ?_, ?_⟩
                  · rw [hP₀]; simp
                  · exact ⟨pln, pts, pv, rfl, hpv, rest, by rw [hk]; exact hpargs⟩
                  · refine ⟨ln, ln2, s, rfl, ?_⟩
                    rw [hr] at hd
                    simpa using hd.symm
          · rw [if_neg hpv] at hstep
            cases hstep; exact hmono
        all_goals simp only [scanStep] at hstep
        all_goals (cases hstep; exact hmono)
    all_goals simp only [scanStep] at hstep
    all_goals (cases hstep; exact hmono)
  | module body =>
    simp only [scanStep] at hstep
    cases hstep; exact hmono
  | ifStmt ln t b o =>
    simp only [scanStep] at hstep
    cases hstep; exact hmono
  | name ln id =>
    simp only [scanStep] at hstep
    cases hstep; exact hmono
  | constStr ln s =>
    simp only [scanStep] at hstep
    cases hstep; exact hmono
  | constInt ln i =>
    simp only [scanStep] at hstep
    cases hstep; exact hmono
  | listExpr ln es =>
    simp only [scanStep] at hstep
    cases hstep; exact hmono
  | tupleExpr ln es =>
    simp only [scanStep] at hstep
    cases hstep; exact hmono

theorem scanLoop_attach :
    ∀ (R P : List Node) (st out : ScanState),
      (∀ k r dd, (k, r) ∈ st.calls → r.description = some dd →
        ∃ l₁ a e l₂, P = l₁ ++ a :: e :: l₂ ∧ attachShape a e k dd) →
      scanLoop R (P.getLast?) st = .ok out →
      ∀ k r dd, (k, r) ∈ out.calls → r.description = some dd →
        ∃ l₁ a e l₂, P ++ R = l₁ ++ a :: e :: l₂ ∧ attachShape a e k dd := by
  intro R
  induction R with
  | nil =>
    intro P st out hgood hloop
    cases hloop
    simpa using hgood
  | cons n R' ih =>
    intro P st out hgood hloop
    simp only [scanLoop] at hloop
    cases hstep : scanStep n (P.getLast?) st with
    | error e => rw [hstep] at hloop; cases hloop
    | ok st₁ =>
      rw [hstep] at hloop
      have hgood₁ := scanStep_good n P st st₁ hstep hgood
      have hlast : (P ++ [n]).getLast? = some n := by simp
      have hloop₁ : scanLoop R' ((P ++ [n]).getLast?) st₁ = .ok out := by
        rw [hlast]; exact hloop
      have := ih (P ++ [n]) st₁ out hgood₁ hloop₁
      intro k r dd hm hd
      obtain ⟨l₁, a, e, l₂, hPR, hshape⟩ := this k r dd hm hd
      exact ⟨l₁, a, e, l₂, by rw [← hPR]; simp, hshape⟩

/-- C2 as amended: an annotation is attached to a call-site exactly
through breadth-first walk adjacency: whenever the final dictionary holds
an entry for key `k` carrying a parsed description `d`, the walked node
list contains an adjacent pair — an assignment whose value is a
recognized call with key `k`, immediately followed by a bare
string-literal expression statement whose dedented, stripped text parses
to `d`.  Walk adjacency coincides with source adjacency for statements in
the same block, but (as `c2_counterexample` shows) can also relate the
last statement of an if-body to the first statement of its else-block. -/
theorem c2_amended :
    ∀ (m : Node) (calls : List (String × EnvironGetCall)) (k : String)
      (r : EnvironGetCall) (d : Description),
      findEnvironGetCalls m = .ok calls → (k, r) ∈ calls →
      r.description = some d →
      ∃ l₁ a e l₂, walkBFS [m] = l₁ ++ a :: e :: l₂ ∧ attachShape a e k d := by
  intro m calls k r d hscan hmem hdesc
  unfold findEnvironGetCalls at hscan
  cases hloop : scanLoop (walkBFS [m]) none {} with
  | error e => rw [hloop] at hscan; cases hscan
  | ok st =>
    rw [hloop] at hscan
    have hcalls : calls = st.calls := by
      simpa [Except.map] using hscan.symm
    have hgood0 : ∀ k r dd,
        (k, r) ∈ (({} : ScanState)).calls → r.description = some dd →
        ∃ l₁ a e l₂, ([] : List Node) = l₁ ++ a :: e :: l₂ ∧
          attachShape a e k dd := by
      intro k r dd hm _
      cases hm
    have hloop' : scanLoop (walkBFS [m]) (([] : List Node).getLast?) {} = .ok st := by
      simpa using hloop
    have := scanLoop_attach (walkBFS [m]) [] {} st hgood0 hloop' k r d
      (by rw [← hcalls]; exact hmem) hdesc
    simpa using this

/-- Witness for C2 as amended at the else-branch module: the walked node
list of `elseBranchDocModule` contains the adjacent assignment/string
pair for key `A` and the description `doc`. -/
theorem c2_amended_witness :
    ∃ l₁ a e l₂, walkBFS [elseBranchDocModule] = l₁ ++ a :: e :: l₂ ∧
      attachShape a e ("A") { description := ("doc") } :=
  c2_amended elseBranchDocModule
    [(("A"), { key := ("A"), description := some { description := ("doc") } })]
    ("A") { key := ("A"), description := some { description := ("doc") } }
    { description := ("doc") } rfl (List.mem_singleton.mpr rfl) rfl

theorem deepCallsList_append : ∀ (l₁ l₂ : List Node),
    deepCallsList (l₁ ++ l₂) = deepCallsList l₁ ++ deepCallsList l₂ := by
  intro l₁ l₂
  induction l₁ with
  | nil => rfl
  | cons n ns ih => simp [deepCallsList, ih]

theorem deepCallsKw_eq : ∀ (ks : List (Option String × Node)),
    deepCallsKw ks = deepCallsList (ks.map Prod.snd) := by
  intro ks
  induction ks with
  | nil => rfl
  | cons p ks ih => simp [deepCallsKw, deepCallsList, ih]

theorem deepCalls_eq (n : Node) :
    n.deepCalls = (if is_environ_get n then [n] else []) ++ deepCallsList n.children := by
  cases n <;>
    simp [Node.deepCalls, Node.children, deepCallsList, deepCallsList_append,
      deepCallsKw_eq, is_environ_get]

theorem deepCallViews_append (l₁ l₂ : List Node) :
    deepCallViews (l₁ ++ l₂) = deepCallViews l₁ + deepCallViews l₂ := by
  unfold deepCallViews
  rw [deepCallsList_append, List.map_append]
  exact (Multiset.coe_add _ _).symm ▸ rfl

theorem deepCallViews_cons (n : Node) (rest : List Node) :
    deepCallViews (n :: rest) = deepCallViews [n] + deepCallViews rest := by
  have h : n :: rest = [n] ++ rest := rfl
  rw [h, deepCallViews_append]

theorem deepCallViews_single (n : Node) :
    deepCallViews [n] =
      (if is_environ_get n then ({callView n} : Multiset (Nat × List String)) else 0) +
        deepCallViews n.children := by
  unfold deepCallViews
  have h1 : deepCallsList [n] = n.deepCalls := by simp [deepCallsList]
  rw [h1, deepCalls_eq n]
  cases hn : is_environ_get n with
  | true => simp
  | false => simp

theorem topCallViews_cons (n : Node) (rest : List Node) :
    topCallViews (n :: rest) =
      (if is_environ_get n then ({callView n} : Multiset (Nat × List String)) else 0) +
        topCallViews rest := by
  unfold topCallViews
  cases hn : is_environ_get n with
  | true => simp [List.filter_cons, hn]
  | false => simp [List.filter_cons, hn]

theorem topCallViews_append (l₁ l₂ : List Node) :
    topCallViews (l₁ ++ l₂) = topCallViews l₁ + topCallViews l₂ := by
  unfold topCallViews
  rw [List.filter_append, List.map_append]
  exact (Multiset.coe_add _ _).symm ▸ rfl

theorem topCallViews_le_deepCallViews : ∀ (q : List Node),
    topCallViews q ≤ deepCallViews q := by
  intro q
  induction q with
  | nil => simp [topCallViews, deepCallViews, deepCallsList]
  | cons n rest ih =>
    rw [topCallViews_cons, deepCallViews_cons, deepCallViews_single]
    refine add_le_add ?_ ih
    cases hn : is_environ_get n with
    | true => simp
    | false => simp

theorem bind_viewKeys_coe : ∀ (l : List Node),
    ((l.map callView : List (Nat × List String)) : Multiset (Nat × List String)).bind
        viewKeys =
      ((l.map Node.callKeys).flatten : List String) := by
  intro l
  induction l with
  | nil => simp
  | cons n ns ih =>
    simp only [List.map_cons, List.flatten_cons]
    rw [← Multiset.cons_coe, Multiset.cons_bind, ih, ← Multiset.coe_add]
    rfl

theorem listContains_iff (l : List (String × EnvironGetCall)) (k : String) :
    listContains l k = true ↔ k ∈ l.map Prod.fst := by
  unfold listContains
  rw [List.any_eq_true]
  constructor
  · rintro ⟨p, hp, he⟩
    exact List.mem_map.mpr ⟨p, hp, by simpa using he⟩
  · rintro h
    obtain ⟨p, hp, he⟩ := List.mem_map.mp h
    exact ⟨p, hp, by simpa using he⟩

theorem listSet_map_fst : ∀ (l : List (String × EnvironGetCall)) (k : String)
    (v : EnvironGetCall), listGet? l k ≠ none →
    (listSet l k v).map Prod.fst = l.map Prod.fst := by
  intro l k v
  induction l with
  | nil => intro h; exact absurd rfl h
  | cons g rest ih =>
    intro h
    by_cases hg : g.1 = k
    · rw [listSet, if_pos hg]
      simp
    · rw [listSet, if_neg hg]
      have h2 : listGet? rest k ≠ none := by
        intro hc
        apply h
        unfold listGet? at hc ⊢
        rw [List.find?_cons_of_neg _ (by simpa using hg)]
        exact hc
      simp [ih h2]

theorem mset_cons_sub_of_not_mem {α : Type} [DecidableEq α]
    (s t : Multiset α) (a : α) (ha : a ∉ t) :
    (a ::ₘ s) - t = a ::ₘ (s - t) := by
  rw [Multiset.ext]
  intro b
  by_cases hb : b = a
  · subst hb
    have ht : Multiset.count b t = 0 := Multiset.count_eq_zero.mpr ha
    simp [Multiset.count_sub, Multiset.count_cons_self, ht]
  · simp [Multiset.count_sub, Multiset.count_cons_of_ne hb]

theorem mset_cons_sub_of_mem {α : Type} [DecidableEq α]
    (s t : Multiset α) (a : α) (ha : a ∈ t) :
    (a ::ₘ s) - t = s - t.erase a := by
  rw [Multiset.ext]
  intro b
  by_cases hb : b = a
  · subst hb
    have ht : 1 ≤ Multiset.count b t := Multiset.one_le_count_iff_mem.mpr ha
    simp only [Multiset.count_sub, Multiset.count_cons_self,
      Multiset.count_erase_self]
    omega
  · simp [Multiset.count_sub, Multiset.count_cons_of_ne hb,
      Multiset.count_erase_of_ne hb]

theorem mset_sub_cons_eq {α : Type} [DecidableEq α]
    (s t : Multiset α) (a : α) :
    s - (a ::ₘ t) = (s - t).erase a := by
  rw [Multiset.ext]
  intro b
  by_cases hb : b = a
  · subst hb
    simp only [Multiset.count_sub, Multiset.count_cons_self,
      Multiset.count_erase_self]
    omega
  · simp [Multiset.count_sub, Multiset.count_cons_of_ne hb,
      Multiset.count_erase_of_ne hb]

theorem mset_le_of_not_mem_cons {α : Type} [DecidableEq α]
    (s t : Multiset α) (a : α) (ha : a ∉ s) (h : s ≤ a ::ₘ t) : s ≤ t := by
  rw [Multiset.le_iff_count] at h ⊢
  intro b
  by_cases hb : b = a
  · subst hb
    have hz : Multiset.count b s = 0 := Multiset.count_eq_zero.mpr ha
    omega
  · have := h b
    rwa [Multiset.count_cons_of_ne hb] at this

theorem callKeys_eq (v : Node) (hv : is_environ_get v = true)
    (key : String) (rest : List String) (hargs : get_args v = key :: rest) :
    v.callKeys = key ::
      (match extractOther (pyDictGet (get_kwargs v) ("other")) with
       | .ok other => other.filterMap (fun x =>
           match x with
           | .pstr s => some s
           | _ => none)
       | _ => []) := by
  simp only [Node.callKeys, hv, hargs, if_true]

theorem alias_mem_callKeys (v : Node) (hv : is_environ_get v = true)
    (key : String) (rest : List String) (hargs : get_args v = key :: rest)
    (other : List PyScalar)
    (hoth : extractOther (pyDictGet (get_kwargs v) ("other")) = .ok other)
    (s : String) (hs : PyScalar.pstr s ∈ other) :
    s ∈ v.callKeys := by
  rw [callKeys_eq v hv key rest hargs, hoth]
  exact List.mem_cons.mpr (Or.inr
    (List.mem_filterMap.mpr ⟨PyScalar.pstr s, hs, rfl⟩))

theorem processNode_not_dup (v : Node) (st : ScanState)
    (hv : is_environ_get v = true)
    (hfresh : ∀ x ∈ v.callKeys, x ∉ st.calls.map Prod.fst) :
    ∀ k ln, processNode v st ≠ .error (.duplicateKey k ln) := by
  intro k ln h
  simp only [processNode] at h
  cases hargs : get_args v with
  | nil => rw [hargs] at h; exact absurd h (by simp)
  | cons key rest =>
    rw [hargs] at h
    dsimp only at h
    have hkey : key ∈ v.callKeys := by
      rw [callKeys_eq v hv key rest hargs]
      exact List.mem_cons_self _ _
    have hkc : listContains st.calls key = false := by
      cases hc : listContains st.calls key
      · rfl
      · exact absurd ((listContains_iff _ _).mp hc) (hfresh key hkey)
    rw [hkc] at h
    simp only [Bool.false_eq_true, if_false] at h
    cases hoth : extractOther (pyDictGet (get_kwargs v) ("other")) with
    | assertError => rw [hoth] at h; exact absurd h (by simp)
    | raisedErr => rw [hoth] at h; exact absurd h (by simp)
    | ok other =>
      rw [hoth] at h
      dsimp only at h
      split at h
      · next hany =>
        obtain ⟨x, hx, hxc⟩ := List.any_eq_true.mp hany
        cases x with
        | pstr s =>
          exact absurd ((listContains_iff _ _).mp hxc)
            (hfresh s (alias_mem_callKeys v hv key rest hargs other hoth s hx))
        | pint n => simp at hxc
      · cases h

theorem processNode_ok_keys (v : Node) (st st₁ : ScanState)
    (hv : is_environ_get v = true)
    (h : processNode v st = .ok st₁) :
    ∃ k tl, v.callKeys = k :: tl ∧
      st₁.calls.map Prod.fst = st.calls.map Prod.fst ++ [k] ∧
      st₁.seen = v.lineno :: st.seen := by
  simp only [processNode] at h
  cases hargs : get_args v with
  | nil => rw [hargs] at h; cases h
  | cons key rest =>
    rw [hargs] at h
    dsimp only at h
    split at h
    · cases h
    · split at h
      · cases h
      · cases h
      · split at h
        · cases h
        · cases h
          refine ⟨key, _, callKeys_eq v hv key rest hargs, ?_, rfl⟩
          simp

theorem mset_le_add_right {α : Type} [DecidableEq α] (s t : Multiset α) :
    s ≤ s + t := by
  rw [Multiset.le_iff_count]
  intro b
  simp [Multiset.count_add]

theorem mset_mem_sub_of_count {α : Type} [DecidableEq α] (s t : Multiset α)
    (a : α) (h : Multiset.count a t + 1 ≤ Multiset.count a s) : a ∈ s - t := by
  rw [← Multiset.count_pos, Multiset.count_sub]
  omega

theorem inv_keys_fresh (P : Multiset String) (B : Multiset (Nat × List String))
    (hnd : (P + B.bind viewKeys).Nodup)
    (a : Nat × List String) (ha : a ∈ B) :
    ∀ x ∈ a.2, x ∉ P := by
  intro x hx hxP
  obtain ⟨_, _, hdis⟩ := Multiset.nodup_add.mp hnd
  exact Multiset.disjoint_left.mp hdis hxP
    (Multiset.mem_bind.mpr ⟨a, ha, by simpa [viewKeys] using hx⟩)

theorem inv_same_keys (n : Node) (q : List Node) (st st₁ : ScanState)
    (hn : is_environ_get n = false)
    (hc : st₁.calls.map Prod.fst = st.calls.map Prod.fst)
    (hs : ∀ x ∈ st.seen, x ∈ st₁.seen)
    (h : ScanInv st (n :: q)) : ScanInv st₁ (q ++ n.children) := by
  obtain ⟨P, Pf, h1, h2, h3, h4, h5⟩ := h
  have hT : topCallViews (n :: q) = topCallViews q := by
    rw [topCallViews_cons]
    simp only [hn, Bool.false_eq_true, if_false, zero_add]
  have hD : deepCallViews (n :: q)
      = deepCallViews q + deepCallViews n.children := by
    rw [deepCallViews_cons, deepCallViews_single]
    simp only [hn, Bool.false_eq_true, if_false, zero_add]
    exact add_comm _ _
  refine ⟨P, Pf, ?_, ?_, ?_, h4, ?_⟩
  · intro k hk
    rw [hc] at hk
    exact h1 k hk
  · rw [hT] at h2
    rw [topCallViews_append]
    exact h2.trans (mset_le_add_right _ _)
  · intro u hu
    exact hs _ (h3 u hu)
  · rw [deepCallViews_append, ← hD]
    exact h5

theorem inv_skip_call (n : Node) (q : List Node) (st : ScanState)
    (hn : is_environ_get n = true)
    (h : ScanInv st (n :: q)) : ScanInv st (q ++ n.children) := by
  obtain ⟨P, Pf, h1, h2, h3, h4, h5⟩ := h
  have hT : topCallViews (n :: q) = callView n ::ₘ topCallViews q := by
    rw [topCallViews_cons, if_pos hn, Multiset.singleton_add]
  have hD : deepCallViews (n :: q)
      = callView n ::ₘ (deepCallViews q + deepCallViews n.children) := by
    rw [deepCallViews_cons, deepCallViews_single, if_pos hn, add_assoc,
      Multiset.singleton_add, add_comm (deepCallViews n.children)]
  rw [hT] at h2
  rw [hD] at h5
  by_cases hPf : callView n ∈ Pf
  · refine ⟨P, Pf.erase (callView n), h1, ?_, ?_, ?_, ?_⟩
    · have := Multiset.erase_le_erase (callView n) h2
      rw [Multiset.erase_cons_head] at this
      rw [topCallViews_append]
      exact this.trans (mset_le_add_right _ _)
    · intro u hu
      exact h3 u (Multiset.mem_of_le (Multiset.erase_le _ _) hu)
    · intro u hu
      exact h4 u (Multiset.mem_of_le (Multiset.erase_le _ _) hu)
    · rw [mset_cons_sub_of_mem _ _ _ hPf] at h5
      rw [deepCallViews_append]
      exact h5
  · refine ⟨P, Pf, h1, ?_, h3, h4, ?_⟩
    · rw [topCallViews_append]
      exact (mset_le_of_not_mem_cons _ _ _ hPf h2).trans (mset_le_add_right _ _)
    · rw [mset_cons_sub_of_not_mem _ _ _ hPf, Multiset.cons_bind] at h5
      rw [deepCallViews_append]
      have hle : P + ((deepCallViews q + deepCallViews n.children) - Pf).bind viewKeys
          ≤ P + (viewKeys (callView n) +
              ((deepCallViews q + deepCallViews n.children) - Pf).bind viewKeys) := by
        rw [Multiset.le_iff_count]
        intro b
        simp only [Multiset.count_add]
        omega
      exact Multiset.nodup_of_le hle h5

theorem inv_process_call (n : Node) (q : List Node) (st : ScanState)
    (hn : is_environ_get n = true)
    (hln : n.lineno ∉ st.seen)
    (h : ScanInv st (n :: q)) :
    (∀ k l2, processNode n st ≠ .error (.duplicateKey k l2)) ∧
    (∀ st₁, processNode n st = .ok st₁ → ScanInv st₁ (q ++ n.children)) := by
  obtain ⟨P, Pf, h1, h2, h3, h4, h5⟩ := h
  have hT : topCallViews (n :: q) = callView n ::ₘ topCallViews q := by
    rw [topCallViews_cons, if_pos hn, Multiset.singleton_add]
  have hD : deepCallViews (n :: q)
      = callView n ::ₘ (deepCallViews q + deepCallViews n.children) := by
    rw [deepCallViews_cons, deepCallViews_single, if_pos hn, add_assoc,
      Multiset.singleton_add, add_comm (deepCallViews n.children)]
  have hPf : callView n ∉ Pf := fun hm => hln (h3 _ hm)
  rw [hT] at h2
  rw [hD, mset_cons_sub_of_not_mem _ _ _ hPf, Multiset.cons_bind] at h5
  have h2q : Pf ≤ topCallViews q := mset_le_of_not_mem_cons _ _ _ hPf h2
  have hfresh : ∀ x ∈ n.callKeys, x ∉ st.calls.map Prod.fst := by
    intro x hx hxc
    obtain ⟨_, _, hdis⟩ := Multiset.nodup_add.mp h5
    exact Multiset.disjoint_left.mp hdis (h1 x hxc)
      (Multiset.mem_add.mpr (Or.inl (by simpa [viewKeys, callView] using hx)))
  refine ⟨processNode_not_dup n st hn hfresh, ?_⟩
  intro st₁ hok
  obtain ⟨k, tl, hkeys, hcalls, hseen⟩ := processNode_ok_keys n st st₁ hn hok
  refine ⟨P + viewKeys (callView n), Pf, ?_, ?_, ?_, ?_, ?_⟩
  · intro x hx
    rw [hcalls] at hx
    rcases List.mem_append.mp hx with hx | hx
    · exact Multiset.mem_add.mpr (Or.inl (h1 x hx))
    · have hxk : x = k := List.mem_singleton.mp hx
      subst hxk
      refine Multiset.mem_add.mpr (Or.inr ?_)
      simp [viewKeys, callView, hkeys]
  · rw [topCallViews_append]
    exact h2q.trans (mset_le_add_right _ _)
  · intro u hu
    rw [hseen]
    exact List.mem_cons_of_mem _ (h3 u hu)
  · intro u hu
    obtain ⟨hne, hk⟩ := h4 u hu
    exact ⟨hne, fun x hx => Multiset.mem_add.mpr (Or.inl (hk x hx))⟩
  · rw [deepCallViews_append, add_assoc]
    exact h5

theorem inv_process_assign (ln : Nat) (ts : List Node) (v : Node)
    (q : List Node) (st : ScanState)
    (hv : is_environ_get v = true)
    (h : ScanInv st (Node.assign ln ts v :: q)) :
    (∀ k l2, processNode v st ≠ .error (.duplicateKey k l2)) ∧
    (∀ st₁, processNode v st = .ok st₁ →
      ScanInv st₁ (q ++ (Node.assign ln ts v).children)) := by
  obtain ⟨P, Pf, h1, h2, h3, h4, h5⟩ := h
  have hT : topCallViews (Node.assign ln ts v :: q) = topCallViews q := by
    rw [topCallViews_cons]
    simp only [show is_environ_get (Node.assign ln ts v) = false from rfl,
      Bool.false_eq_true, if_false, zero_add]
  have hch : (Node.assign ln ts v).children = ts ++ [v] := rfl
  have hCv : deepCallViews (Node.assign ln ts v).children
      = deepCallViews ts + (callView v ::ₘ deepCallViews v.children) := by
    rw [hch, deepCallViews_append, deepCallViews_single, if_pos hv,
      Multiset.singleton_add]
  have hD : deepCallViews (Node.assign ln ts v :: q)
      = deepCallViews q + deepCallViews (Node.assign ln ts v).children := by
    rw [deepCallViews_cons, deepCallViews_single]
    simp only [show is_environ_get (Node.assign ln ts v) = false from rfl,
      Bool.false_eq_true, if_false, zero_add]
    exact add_comm _ _
  rw [hT] at h2
  have hcount : Multiset.count (callView v) Pf + 1
      ≤ Multiset.count (callView v) (deepCallViews (Node.assign ln ts v :: q)) := by
    have hPfq : Multiset.count (callView v) Pf
        ≤ Multiset.count (callView v) (deepCallViews q) :=
      le_trans (Multiset.count_le_of_le _ h2)
        (Multiset.count_le_of_le _ (topCallViews_le_deepCallViews q))
    rw [hD, hCv]
    simp only [Multiset.count_add, Multiset.count_cons_self]
    omega
  have hmemD : callView v ∈ deepCallViews (Node.assign ln ts v :: q) - Pf :=
    mset_mem_sub_of_count _ _ _ hcount
  have hPfv : callView v ∉ Pf := by
    intro hm
    obtain ⟨hne, hkP⟩ := h4 _ hm
    cases hck : (callView v).2 with
    | nil => exact hne hck
    | cons c cs =>
      have hcmem : c ∈ (callView v).2 := by
        rw [hck]
        exact List.mem_cons_self _ _
      exact inv_keys_fresh P _ h5 (callView v) hmemD c hcmem (hkP c hcmem)
  have hfresh : ∀ x ∈ v.callKeys, x ∉ st.calls.map Prod.fst := by
    intro x hx hxc
    exact inv_keys_fresh P _ h5 (callView v) hmemD x
      (by simpa [callView] using hx) (h1 x hxc)
  refine ⟨processNode_not_dup v st hv hfresh, ?_⟩
  intro st₁ hok
  obtain ⟨k, tl, hkeys, hcalls, hseen⟩ := processNode_ok_keys v st st₁ hv hok
  refine ⟨P + viewKeys (callView v), callView v ::ₘ Pf, ?_, ?_, ?_, ?_, ?_⟩
  · intro x hx
    rw [hcalls] at hx
    rcases List.mem_append.mp hx with hx | hx
    · exact Multiset.mem_add.mpr (Or.inl (h1 x hx))
    · have hxk : x = k := List.mem_singleton.mp hx
      subst hxk
      refine Multiset.mem_add.mpr (Or.inr ?_)
      simp [viewKeys, callView, hkeys]
  · have hvT : callView v ∈ topCallViews (Node.assign ln ts v).children := by
      rw [hch]
      refine Multiset.mem_coe.mpr (List.mem_map.mpr ⟨v, ?_, rfl⟩)
      exact List.mem_filter.mpr
        ⟨List.mem_append.mpr (Or.inr (List.mem_singleton.mpr rfl)), hv⟩
    rw [topCallViews_append, add_comm (topCallViews q), ← Multiset.singleton_add]
    exact add_le_add (Multiset.singleton_le.mpr hvT) h2
  · intro u hu
    rw [hseen]
    rcases Multiset.mem_cons.mp hu with hu | hu
    · rw [hu]
      exact List.mem_cons_self _ _
    · exact List.mem_cons_of_mem _ (h3 u hu)
  · intro u hu
    rcases Multiset.mem_cons.mp hu with hu | hu
    · subst hu
      refine ⟨?_, ?_⟩
      · show v.callKeys ≠ []
        rw [hkeys]
        simp
      · intro x hx
        exact Multiset.mem_add.mpr
          (Or.inr (by simpa [viewKeys, callView] using hx))
    · obtain ⟨hne, hk⟩ := h4 u hu
      exact ⟨hne, fun x hx => Multiset.mem_add.mpr (Or.inl (hk x hx))⟩
  · rw [deepCallViews_append, mset_sub_cons_eq]
    rw [hD] at h5
    have hmem2 : callView v ∈
        (deepCallViews q + deepCallViews (Node.assign ln ts v).children) - Pf := by
      rw [← hD]
      exact hmemD
    rw [← Multiset.cons_erase hmem2, Multiset.cons_bind] at h5
    rw [add_assoc]
    exact h5

theorem scanStep_exprStmt_cases (ln : Nat) (v : Node) (prev : Option Node)
    (st : ScanState) :
    (∃ st₁, scanStep (.exprStmt ln v) prev st = .ok st₁ ∧
      st₁.calls.map Prod.fst = st.calls.map Prod.fst ∧
      ∀ x ∈ st.seen, x ∈ st₁.seen) ∨
    scanStep (.exprStmt ln v) prev st = .error .indexError ∨
    (∃ key, scanStep (.exprStmt ln v) prev st = .error (.keyError key)) := by
  cases v
  case constStr ln2 s =>
    cases prev with
    | none => exact Or.inl ⟨st, rfl, rfl, fun x hx => hx⟩
    | some pn =>
      cases pn
      case assign pln pts pv =>
        by_cases hpv : is_environ_get pv = true
        · cases hpargs : get_args pv with
          | nil =>
            refine Or.inr (Or.inl ?_)
            simp only [scanStep]
            rw [if_pos hpv, hpargs]
          | cons key rest =>
            cases hfind : listGet? st.calls key with
            | none =>
              refine Or.inr (Or.inr ⟨key, ?_⟩)
              simp only [scanStep]
              rw [if_pos hpv, hpargs]
              dsimp only
              rw [hfind]
            | some r =>
              have hne : listGet? st.calls key ≠ none := by
                rw [hfind]
                simp
              refine Or.inl ⟨{ calls := listSet st.calls key { r with description := some (Description.from_desc (pyStrip (pyDedent s))) }, seen := ln :: st.seen }, ?_, ?_, ?_⟩
              · simp only [scanStep]
                rw [if_pos hpv, hpargs]
                dsimp only
                rw [hfind]
              · exact listSet_map_fst st.calls key _ hne
              · intro x hx
                exact List.mem_cons_of_mem _ hx
        · refine Or.inl ⟨st, ?_, rfl, fun x hx => hx⟩
          simp only [scanStep]
          rw [if_neg hpv]
      all_goals exact Or.inl ⟨st, rfl, rfl, fun x hx => hx⟩
  all_goals exact Or.inl ⟨st, rfl, rfl, fun x hx => hx⟩

theorem scanStep_inv (n : Node) (prev : Option Node) (q : List Node)
    (st : ScanState) (hinv : ScanInv st (n :: q)) :
    (∀ k l2, scanStep n prev st ≠ .error (.duplicateKey k l2)) ∧
    (∀ st₁, scanStep n prev st = .ok st₁ → ScanInv st₁ (q ++ n.children)) := by
  cases n
  case assign ln ts v =>
    constructor
    · intro k l2 h
      simp only [scanStep] at h
      split at h
      · next hcond =>
        have hv : is_environ_get v = true := ((Bool.and_eq_true _ _).mp hcond).1
        exact (inv_process_assign ln ts v q st hv hinv).1 k l2 h
      · cases h
    · intro st₁ h
      simp only [scanStep] at h
      split at h
      · next hcond =>
        have hv : is_environ_get v = true := ((Bool.and_eq_true _ _).mp hcond).1
        exact (inv_process_assign ln ts v q st hv hinv).2 st₁ h
      · cases h
        exact inv_same_keys _ q st st rfl rfl (fun x hx => hx) hinv
  case call ln f args kws =>
    constructor
    · intro k l2 h
      simp only [scanStep] at h
      split at h
      · next hcond =>
        obtain ⟨hn, hns⟩ := (Bool.and_eq_true _ _).mp hcond
        have hln : ln ∉ st.seen := by simpa using hns
        exact (inv_process_call (Node.call ln f args kws) q st hn hln hinv).1
          k l2 h
      · cases h
    · intro st₁ h
      simp only [scanStep] at h
      split at h
      · next hcond =>
        obtain ⟨hn, hns⟩ := (Bool.and_eq_true _ _).mp hcond
        have hln : ln ∉ st.seen := by simpa using hns
        exact (inv_process_call (Node.call ln f args kws) q st hn hln hinv).2
          st₁ h
      · cases h
        cases hn : is_environ_get (Node.call ln f args kws) with
        | true => exact inv_skip_call _ q st hn hinv
        | false => exact inv_same_keys _ q st st hn rfl (fun x hx => hx) hinv
  case exprStmt ln v =>
    rcases scanStep_exprStmt_cases ln v prev st with
      ⟨st₁, hok, hc, hs⟩ | herr | ⟨key, herr⟩
    · constructor
      · intro k l2 h
        rw [hok] at h
        cases h
      · intro st₂ h
        rw [hok] at h
        cases h
        exact inv_same_keys _ q st st₁ rfl hc hs hinv
    · constructor
      · intro k l2 h
        rw [herr] at h
        exact absurd h (by simp)
      · intro st₂ h
        rw [herr] at h
        cases h
    · constructor
      · intro k l2 h
        rw [herr] at h
        exact absurd h (by simp)
      · intro st₂ h
        rw [herr] at h
        cases h
  all_goals refine ⟨fun k l2 h => ?_, fun st₁ h => ?_⟩
  all_goals simp only [scanStep] at h
  all_goals
    cases h <;>
      exact inv_same_keys _ q st st rfl rfl (fun x hx => hx) hinv

theorem scanQueue_no_dup :
    ∀ (q : List Node) (prev : Option Node) (st : ScanState),
      ScanInv st q → ∀ k ln, scanQueue q prev st ≠ .error (.duplicateKey k ln)
  | [], _, _, _ => by
      intro k ln h
      rw [scanQueue] at h
      cases h
  | n :: rest, prev, st, hinv => by
      intro k ln h
      rw [scanQueue] at h
      cases hstep : scanStep n prev st with
      | error e =>
        rw [hstep] at h
        dsimp only at h
        cases h
        exact (scanStep_inv n prev rest st hinv).1 k ln hstep
      | ok st' =>
        rw [hstep] at h
        dsimp only at h
        exact scanQueue_no_dup (rest ++ n.children) (some n) st'
          ((scanStep_inv n prev rest st hinv).2 st' hstep) k ln h
termination_by q _ _ _ => sizeListAux q
decreasing_by
  have happ := sizeFacts_holds.1 rest n.children
  have hch := sizeFacts_holds.2.1 n
  have h3 : sizeListAux (n :: rest) = n.size + sizeListAux rest := rfl
  omega

theorem findEnvironGetCalls_no_dup (m : Node) (hnd : (docKeys m).Nodup) :
    ∀ k ln, findEnvironGetCalls m ≠ .error (.duplicateKey k ln) := by
  have hinv0 : ScanInv {} [m] := by
    refine ⟨0, 0, ?_, zero_le _, ?_, ?_, ?_⟩
    · intro x hx
      simp at hx
    · intro u hu
      exact absurd hu (Multiset.not_mem_zero u)
    · intro u hu
      exact absurd hu (Multiset.not_mem_zero u)
    · rw [Multiset.sub_zero, zero_add]
      unfold deepCallViews
      rw [bind_viewKeys_coe, Multiset.coe_nodup]
      have hl : deepCallsList [m] = m.deepCalls := by simp [deepCallsList]
      rw [hl]
      exact hnd
  intro k ln h
  unfold findEnvironGetCalls at h
  rw [scanLoop_walkBFS_eq_scanQueue] at h
  cases hq : scanQueue [m] none {} with
  | error e =>
    rw [hq] at h
    simp only [Except.map] at h
    cases h
    exact scanQueue_no_dup [m] none {} hinv0 k ln hq
  | ok stf =>
    rw [hq] at h
    simp only [Except.map] at h
    cases h

/-- C1 counterexample: in `aliasCollisionModule` the second call's primary
key `X` was already recorded as an alias of the first call, yet the scan
succeeds and records both calls instead of failing with the duplicate-key
error — the code only checks new key material against previously recorded
primary keys, never against previously recorded aliases. -/
theorem c1_counterexample :
    findEnvironGetCalls aliasCollisionModule =
      .ok [(("A"), { key := ("A"), other := [PyScalar.pstr ("X")] }),
           (("X"), { key := ("X") })] := by
  rfl

/-- C1 amended: whenever all primary keys and string aliases across the
document are pairwise distinct, the scan never fails with the
duplicate-key error; and a collision of a new call's primary key with a
previously recorded primary key is detected, with the error naming that
key and the offending call's line number (`primaryCollisionModule` fails
with key `A` at line 2). -/
theorem c1_amended :
    (∀ m : Node, (docKeys m).Nodup →
      ∀ k ln, findEnvironGetCalls m ≠ .error (.duplicateKey k ln)) ∧
    findEnvironGetCalls primaryCollisionModule =
      .error (.duplicateKey ("A") 2) := by
  constructor
  · exact findEnvironGetCalls_no_dup
  · rfl

theorem c1_amended_witness :
    (docKeys distinctKeysModule).Nodup ∧
    findEnvironGetCalls distinctKeysModule ≠
      .error (.duplicateKey ("A") 1) :=
  ⟨by decide, c1_amended.1 distinctKeysModule (by decide) ("A") 1⟩

end EnvironGet
